import Mathlib

/-!
Shallow embedding of the linear-chain CRF engine of the
ThaiSyllableSegmenter repository (src/CRF.js, src/ThaiSyllableSegmenter.js,
src/ThaiUtils.js), together with theorems settling the specification
claims about it.

Real numbers of the JavaScript code (IEEE doubles) are modelled as
rationals; `Math.exp` and `Math.log`, which the algorithms treat as opaque
real functions, are passed in as explicit parameters `expf`/`logf`, so
every definition stays executable.  JavaScript `Map`s are modelled as
insertion-ordered association lists with unique keys; `Map.get` is
`mapGet` (first matching key).
-/

namespace ThaiCRF

/-- CRF model state: the fields of the `CRF` class (CRF.js constructor).
`weights` is `null` before training in the source; the claims under
study only concern trained/imported states, where it is a flat array of
length `numFeatures * numLabels`. -/
structure Model where
  learningRate : ℚ
  maxIterations : Nat
  regularization : ℚ
  tolerance : ℚ
  weights : List ℚ
  featureMap : List (String × Nat)
  labelMap : List (String × Nat)
  numFeatures : Nat
  numLabels : Nat
deriving DecidableEq

/-- `Map.get`: first entry with the given key (keys are unique in every
map the code builds). -/
def mapGet : List (String × Nat) → String → Option Nat
  | [], _ => none
  | p :: ps, s => if p.1 = s then some p.2 else mapGet ps s

/-- `CRF._computeScore(features, label)`: sum of `weights[f*numLabels+label]`
over the active features found in `featureMap`; absent features are
skipped (`featureIdx !== undefined` guard). -/
def computeScore (m : Model) (features : List String) (label : Nat) : ℚ :=
  features.foldl (fun score f =>
    match mapGet m.featureMap f with
    | some fi => score + m.weights.getD (fi * m.numLabels + label) 0
    | none => score) 0

/-- The synthetic transition feature name `TRANS_${fromLabel}_${toLabel}`
(CRF._computeTransitionScore). -/
def transFeature (fr tto : Nat) : String :=
  "TRANS_" ++ toString fr ++ "_" ++ toString tto

/-- `CRF._computeTransitionScore(fromLabel, toLabel)`: weight of the
synthetic transition feature, `0` if it was never observed. -/
def computeTransitionScore (m : Model) (fr tto : Nat) : ℚ :=
  match mapGet m.featureMap (transFeature fr tto) with
  | some fi => m.weights.getD (fi * m.numLabels + tto) 0
  | none => 0

/-- One step of `CRF._buildMappings`: `if (!map.has(x)) map.set(x, idx++)`.
The running counter always equals the map size, so the fresh id is the
current length. -/
def insertKey (m : List (String × Nat)) (s : String) : List (String × Nat) :=
  if (mapGet m s).isSome then m else m ++ [(s, m.length)]

/-- Folding `insertKey` over a flat stream of strings. -/
def buildMap (stream : List String) : List (String × Nat) :=
  stream.foldl insertKey []

/-- Label-map construction loop of `CRF._buildMappings`. -/
def buildLabelMap (labels : List (List String)) : List (String × Nat) :=
  labels.foldl (fun m seq => seq.foldl insertKey m) []

/-- Feature-map construction loop of `CRF._buildMappings`. -/
def buildFeatureMap (sequences : List (List (List String))) : List (String × Nat) :=
  sequences.foldl (fun m seq => seq.foldl (fun m' feats => feats.foldl insertKey m') m) []

/-- The max scan of `CRF.predict`: running best `(index, value)` over a
list of candidate scores starting at position `i`, updating only on a
strict `>` comparison (so the first maximal value is kept). -/
def argmaxFrom (bi : Nat) (bv : ℚ) (i : Nat) : List ℚ → Nat × ℚ
  | [] => (bi, bv)
  | v :: vs => if bv < v then argmaxFrom i v (i + 1) vs else argmaxFrom bi bv (i + 1) vs

/-- Scan over a nonempty candidate list.  In the source the scan starts
from `maxScore = -Infinity`, so the first candidate always becomes the
initial best. -/
def argmaxFirst (x : ℚ) (xs : List ℚ) : Nat × ℚ :=
  argmaxFrom 0 x 1 xs

/-- The final `argmax` over `dp[n-1][·]` in `CRF.predict` (initial best is
index 0, strict `>` scan over the rest). -/
def bestFinalIndex : List ℚ → Nat
  | [] => 0
  | c :: cs => (argmaxFirst c cs).1

/-- Inner double loop of the Viterbi forward pass (positions `i ≥ 1`):
for each label `j`, scan `k` over the previous row, returning the new
`dp` row and the backpointer row. -/
def viterbiStep (m : Model) (prev : List ℚ) (feats : List String) :
    List ℚ × List Nat :=
  let cols := (List.range m.numLabels).map (fun j =>
    match (List.range m.numLabels).map
        (fun k => prev.getD k 0 + computeTransitionScore m k j + computeScore m feats j) with
    | [] => (0, (0 : ℚ))
    | c :: cs => argmaxFirst c cs)
  (cols.map Prod.snd, cols.map Prod.fst)

/-- Backtracking loop of `CRF.predict`, consuming the backpointer rows
newest first: `result[i] = path[i+1][result[i+1]]`. -/
def backtrackRev : List (List Nat) → Nat → List Nat
  | [], last => [last]
  | row :: rest, last => backtrackRev rest (row.getD last 0) ++ [last]

/-- `CRF.predict` up to the final id→string mapping.  The empty input is
returned immediately (`if (n === 0) return []`), before any scoring. -/
def predictIds (m : Model) (seq : List (List String)) : List Nat :=
  match seq with
  | [] => []
  | f0 :: rest =>
      let dp0 := (List.range m.numLabels).map (fun j => computeScore m f0 j)
      let st := rest.foldl (fun (st : List ℚ × List (List Nat)) feats =>
          let vs := viterbiStep m st.1 feats
          (vs.1, vs.2 :: st.2)) (dp0, ([] : List (List Nat)))
      backtrackRev st.2 (bestFinalIndex st.1)

/-- Forward recurrence step of `CRF._forwardBackward` (row `i ≥ 1` from
row `i-1`): `alpha[i][j] = Σ_k alpha[i-1][k] · exp(trans(k,j) + score(seq[i],j))`. -/
def alphaStep (m : Model) (expf : ℚ → ℚ) (prev : List ℚ) (feats : List String) : List ℚ :=
  (List.range m.numLabels).map (fun j =>
    ((List.range m.numLabels).map (fun k =>
      prev.getD k 0 * expf (computeTransitionScore m k j + computeScore m feats j))).sum)

/-- The forward pass: row 0 is `exp(score(seq[0], j))`, later rows via
`alphaStep`; `List.scanl` is exactly the `for (i = 1; …)` loop. -/
def alphaRows (m : Model) (expf : ℚ → ℚ) : List (List String) → List (List ℚ)
  | [] => []
  | f0 :: rest =>
      List.scanl (alphaStep m expf)
        ((List.range m.numLabels).map (fun j => expf (computeScore m f0 j))) rest

/-- Backward recurrence step (row `i` from row `i+1`, using position
`i+1`'s features): `beta[i][j] = Σ_k beta[i+1][k] · exp(trans(j,k) + score(seq[i+1],k))`. -/
def betaStep (m : Model) (expf : ℚ → ℚ) (nxt : List ℚ) (featsNext : List String) : List ℚ :=
  (List.range m.numLabels).map (fun j =>
    ((List.range m.numLabels).map (fun k =>
      nxt.getD k 0 * expf (computeTransitionScore m j k + computeScore m featsNext k))).sum)

/-- The backward pass: last row all ones, then `betaStep` downwards. -/
def betaRows (m : Model) (expf : ℚ → ℚ) : List (List String) → List (List ℚ)
  | [] => []
  | [_] => [List.replicate m.numLabels 1]
  | _ :: f1 :: rest =>
      let tl := betaRows m expf (f1 :: rest)
      betaStep m expf (tl.headD []) f1 :: tl

/-- `CRF._forwardBackward`: `(alpha, beta, Z)` with
`Z = alpha[n-1].reduce((s,v) => s+v, 0)`.  The source indexes
`alpha[n-1]` unconditionally, so it is only meaningful for nonempty
sequences (its only caller, `train`, passes the training sequences). -/
def forwardBackward (m : Model) (expf : ℚ → ℚ) (seq : List (List String)) :
    List (List ℚ) × List (List ℚ) × ℚ :=
  let A := alphaRows m expf seq
  let B := betaRows m expf seq
  (A, B, (A.getLastD []).sum)

/-- `CRF._computeSequenceLogLikelihood`: gold-path score minus `log Z`.
The label ids looked up here always exist when `train` built the label
map from these very labels; the `getD` defaults are never reached in
that flow. -/
def sequenceLogLikelihood (m : Model) (logf : ℚ → ℚ) (seq : List (List String))
    (labs : List String) (Z : ℚ) : ℚ :=
  ((List.range seq.length).foldl (fun s i =>
    let li := (mapGet m.labelMap (labs.getD i "")).getD 0
    let s' := s + computeScore m (seq.getD i []) li
    if 0 < i then
      s' + computeTransitionScore m ((mapGet m.labelMap (labs.getD (i - 1) "")).getD 0) li
    else s') 0) - logf Z

/-- `gradients[i] += v` on the flat gradient buffer (writes outside the
buffer are ignored, as on a JS typed array). -/
def bufAdd (g : List ℚ) (i : Nat) (v : ℚ) : List ℚ :=
  g.set i (g.getD i 0 + v)

/-- `CRF._updateGradients`: subtract the marginal
`alpha[i][j]·beta[i][j]/Z` for every active in-vocabulary feature and
every label `j`, then add `+1` at the gold label.  When the gold label
is not in the label map the empirical `+1` writes go to index `NaN` in
the source and are dropped; modelled by skipping them. -/
def updateGradients (m : Model) (seq : List (List String)) (labs : List String)
    (alpha beta : List (List ℚ)) (Z : ℚ) (g0 : List ℚ) : List ℚ :=
  (List.range seq.length).foldl (fun g i =>
    let labelIdx? := mapGet m.labelMap (labs.getD i "")
    let g1 := (List.range m.numLabels).foldl (fun g j =>
      let marginal := (alpha.getD i []).getD j 0 * (beta.getD i []).getD j 0 / Z
      (seq.getD i []).foldl (fun g f =>
        match mapGet m.featureMap f with
        | some fi => bufAdd g (fi * m.numLabels + j) (-marginal)
        | none => g) g) g
    (seq.getD i []).foldl (fun g f =>
      match mapGet m.featureMap f, labelIdx? with
      | some fi, some li => bufAdd g (fi * m.numLabels + li) 1
      | _, _ => g) g1) g0

/-- The per-iteration corpus pass of `CRF.train`: starting from a fresh
zero gradient buffer of the weights' length, accumulate log-likelihood
and gradients over every `(sequence, labelSeq)` pair. -/
def corpusPass (m : Model) (expf logf : ℚ → ℚ)
    (seqs : List (List (List String))) (labels : List (List String)) : ℚ × List ℚ :=
  (List.range seqs.length).foldl (fun (acc : ℚ × List ℚ) i =>
    let seq := seqs.getD i []
    let labs := labels.getD i []
    let fb := forwardBackward m expf seq
    (acc.1 + sequenceLogLikelihood m logf seq labs fb.2.2,
     updateGradients m seq labs fb.1 fb.2.1 fb.2.2 acc.2))
    (0, List.replicate m.weights.length 0)

/-- One full iteration of the `CRF.train` loop body: corpus pass, then
the regularization loop (`logLikelihood -= reg·w²/2`,
`gradients[j] -= reg·weights[j]`), then the single weight-update loop
(`weights[j] += learningRate · gradients[j]`).  The element-at-a-time
JS loops over `j < weights.length` are written as `zipWith`s; the
gradient buffer always has the weights' length. -/
def trainIteration (m : Model) (expf logf : ℚ → ℚ)
    (seqs : List (List (List String))) (labels : List (List String)) : ℚ × List ℚ :=
  let p := corpusPass m expf logf seqs labels
  let ll := p.1 - (m.weights.map (fun w => m.regularization * w * w / 2)).sum
  let grads := List.zipWith (fun g w => g - m.regularization * w) p.2 m.weights
  (ll, List.zipWith (fun w g => w + m.learningRate * g) m.weights grads)

/-- The iteration loop of `CRF.train`.  `prevLL = none` models the
initial `prevLogLikelihood = -Infinity` (the first convergence test can
never succeed); the convergence test runs after the weight update, as
in the source, and reaching the iteration cap simply returns the
current weights. -/
def trainAux (m : Model) (expf logf : ℚ → ℚ)
    (seqs : List (List (List String))) (labels : List (List String)) :
    Nat → List ℚ → Option ℚ → List ℚ
  | 0, w, _ => w
  | fuel + 1, w, prevLL =>
      let it := trainIteration { m with weights := w } expf logf seqs labels
      if (match prevLL with
          | some p => decide (|it.1 - p| < m.tolerance)
          | none => false) then it.2
      else trainAux m expf logf seqs labels fuel it.2 (some it.1)

/-- `CRF.train`: build the mappings, zero-initialize the weights, run the
iteration loop. -/
def crfTrain (m : Model) (expf logf : ℚ → ℚ)
    (seqs : List (List (List String))) (labels : List (List String)) : Model :=
  let fm := buildFeatureMap seqs
  let lm := buildLabelMap labels
  let m1 := { m with featureMap := fm, labelMap := lm,
                     numFeatures := fm.length, numLabels := lm.length,
                     weights := List.replicate (fm.length * lm.length) 0 }
  { m1 with weights := trainAux m1 expf logf seqs labels m.maxIterations m1.weights none }

/-- The `config` object of `CRF.saveModel` / `CRF.loadModel`. -/
structure ConfigData where
  learningRate : ℚ
  maxIterations : Nat
  regularization : ℚ
  tolerance : ℚ
deriving DecidableEq

/-- The plain value produced by `CRF.saveModel`. -/
structure SavedModel where
  weights : List ℚ
  featureMap : List (String × Nat)
  labelMap : List (String × Nat)
  numFeatures : Nat
  numLabels : Nat
  config : ConfigData
deriving DecidableEq

/-- Input value of `CRF.loadModel`; `weights`, `featureMap`, `labelMap`
and `config` may be absent (JS `undefined`). -/
structure ModelData where
  weights : Option (List ℚ)
  featureMap : Option (List (String × Nat))
  labelMap : Option (List (String × Nat))
  numFeatures : Nat
  numLabels : Nat
  config : Option ConfigData
deriving DecidableEq

/-- `CRF.saveModel`: snapshot every field as a plain value. -/
def saveModel (m : Model) : SavedModel :=
  { weights := m.weights, featureMap := m.featureMap, labelMap := m.labelMap,
    numFeatures := m.numFeatures, numLabels := m.numLabels,
    config := ⟨m.learningRate, m.maxIterations, m.regularization, m.tolerance⟩ }

/-- A saved model viewed as import data (every field present). -/
def toModelData (s : SavedModel) : ModelData :=
  { weights := some s.weights, featureMap := some s.featureMap,
    labelMap := some s.labelMap, numFeatures := s.numFeatures,
    numLabels := s.numLabels, config := some s.config }

/-- `Map.prototype.set`: overwrite the value at an existing key in
place, else append a fresh entry. -/
def mapSet (m : List (String × Nat)) (k : String) (v : Nat) : List (String × Nat) :=
  if (mapGet m k).isSome then m.map (fun p => if p.1 = k then (k, v) else p)
  else m ++ [(k, v)]

/-- `new Map(entries)`: set every entry in order. -/
def mapOfEntries (l : List (String × Nat)) : List (String × Nat) :=
  l.foldl (fun m p => mapSet m p.1 p.2) []

/-- `CRF.loadModel`: unconditionally replace every field from the given
data.  `new Float64Array(undefined)` and `new Map(undefined)` are the
empty array/map, so absent fields become empty; no field is validated.
Hyperparameters are overwritten only when a `config` field is present. -/
def loadModel (m : Model) (d : ModelData) : Model :=
  { weights := d.weights.getD [],
    featureMap := mapOfEntries (d.featureMap.getD []),
    labelMap := mapOfEntries (d.labelMap.getD []),
    numFeatures := d.numFeatures,
    numLabels := d.numLabels,
    learningRate := match d.config with | some c => c.learningRate | none => m.learningRate,
    maxIterations := match d.config with | some c => c.maxIterations | none => m.maxIterations,
    regularization := match d.config with | some c => c.regularization | none => m.regularization,
    tolerance := match d.config with | some c => c.tolerance | none => m.tolerance }

/-- Insertion into a list sorted by id (ascending), used to model
`entries().sort((a,b) => a[1]-b[1])`; ids are unique in every map the
code builds, so stability is immaterial. -/
def insertById (p : String × Nat) : List (String × Nat) → List (String × Nat)
  | [] => [p]
  | q :: qs => if p.2 < q.2 then p :: q :: qs else q :: insertById p qs

/-- Sort the label map entries ascending by id. -/
def sortById (l : List (String × Nat)) : List (String × Nat) :=
  l.foldr insertById []

/-- `labelNames` of `CRF.predict`: label strings ordered by id. -/
def labelNames (m : Model) : List String :=
  (sortById m.labelMap).map Prod.fst

/-- Full `CRF.predict`: Viterbi ids mapped back to label strings. -/
def predict (m : Model) (seq : List (List String)) : List String :=
  (predictIds m seq).map (fun idx => (labelNames m).getD idx "")

/-- `ThaiUtils.isCombiningMark`: Thai combining vowels/tone marks and
diacritics by UTF-16 code unit range. -/
def isCombiningMark (c : Char) : Bool :=
  (0x0E31 ≤ c.toNat && c.toNat ≤ 0x0E3A) || (0x0E47 ≤ c.toNat && c.toNat ≤ 0x0E4E)

/-- Body of the `while (i < text.length)` loop of
`ThaiUtils.splitToCharacters`: `cur` is the current cluster, reversed;
a combining mark joins it, anything else flushes it and starts a new
cluster. -/
def splitAcc (cur : List Char) : List Char → List String
  | [] => [String.mk cur.reverse]
  | d :: rest =>
      if isCombiningMark d then splitAcc (d :: cur) rest
      else String.mk cur.reverse :: splitAcc [d] rest

/-- `ThaiUtils.splitToCharacters`: group every character with the run of
combining marks that follows it. -/
def splitToCharacters : List Char → List String
  | [] => []
  | c :: rest => splitAcc [c] rest

/-- Zero-width characters removed by `ThaiUtils.normalize`
(`/[​-‏⁠﻿]/g`). -/
def isZeroWidth (c : Char) : Bool :=
  (0x200B ≤ c.toNat && c.toNat ≤ 0x200F) || c.toNat = 0x2060 || c.toNat = 0xFEFF

/-- `ThaiUtils.normalize`: Unicode NFC normalization followed by the
zero-width strip.  NFC is the identity on the precomposed material this
development evaluates on (no canonically decomposable sequence occurs),
so only the zero-width strip is modelled. -/
def normalize (text : List Char) : List Char :=
  text.filter (fun c => !isZeroWidth c)

/-- Inner `for (j …)` loop of `ThaiSyllableSegmenter._syllablesToLabels`:
consume one syllable's character clusters against `chars` from
`charIndex`, labelling `B` at its first cluster and `I` afterwards, with
the two `throw`s of the source as errors. -/
def consumeSyllable (chars : List String) :
    List String → Nat → Bool → Except String (List String × Nat)
  | [], idx, _ => .ok ([], idx)
  | sc :: scs, idx, first =>
      if chars.length ≤ idx then .error "Character index out of bounds"
      else if chars.getD idx "" ≠ sc then .error "Character mismatch"
      else
        match consumeSyllable chars scs (idx + 1) false with
        | .error e => .error e
        | .ok (ls, idx') => .ok ((if first then "B" else "I") :: ls, idx')

/-- Outer loop of `_syllablesToLabels` over the syllables, then the
final fill of any remaining positions with `I`. -/
def labelSyllables (chars : List String) : List String → Nat → Except String (List String)
  | [], idx => .ok (List.replicate (chars.length - idx) "I")
  | syl :: rest, idx =>
      match consumeSyllable chars (splitToCharacters syl.data) idx true with
      | .error e => .error e
      | .ok (ls, idx') =>
          match labelSyllables chars rest idx' with
          | .error e => .error e
          | .ok ls' => .ok (ls ++ ls')

/-- `ThaiSyllableSegmenter._syllablesToLabels`. -/
def syllablesToLabels (chars : List String) (syllables : List String) :
    Except String (List String) :=
  labelSyllables chars syllables 0

/-- One `{text, syllables}` training sample. -/
structure TrainSample where
  text : List Char
  syllables : List String
deriving DecidableEq

/-- `ThaiSyllableSegmenter._prepareTrainingSample`.  The two labelling
`throw`s are caught by the surrounding `try`/`catch` and, like the
`labelSeq.length !== chars.length` check, turn the sample into `none`
(the JS `{features: null, …}`).  Feature extraction
(`extractSequenceFeatures`) never throws and yields exactly one feature
list per character cluster; since no claim inspects feature contents,
only counts and validity, the cluster list stands in for the feature
lists. -/
def prepareTrainingSample (text : List Char) (syllables : List String) :
    Option (List String × List String) :=
  let chars := splitToCharacters (normalize text)
  match syllablesToLabels chars syllables with
  | .error _ => none
  | .ok labelSeq => if labelSeq.length ≠ chars.length then none else some (chars, labelSeq)

/-- `ThaiSyllableSegmenter.train` up to (and deciding) its only failure:
collect the samples `_prepareTrainingSample` accepted, in order, throw
`No valid training samples found` when none remain, and otherwise hand
the parallel sequence/label arrays to `CRF.train` (returned here). -/
def segTrainPrepare (trainingData : List TrainSample) :
    Except String (List (List String) × List (List String)) :=
  let pairs := trainingData.filterMap (fun s => prepareTrainingSample s.text s.syllables)
  if pairs.length = 0 then .error "No valid training samples found"
  else .ok (pairs.map Prod.fst, pairs.map Prod.snd)

/-- One position's emission-score row (the scores `_computeScore` gives
each label id for that position's features). -/
def eRow (m : Model) (feats : List String) : List ℚ :=
  (List.range m.numLabels).map (fun j => computeScore m feats j)

/-- Position-wise decoding: first argmax over one position's emission
scores — the form Viterbi reduces to when all transition scores are 0. -/
def emissionArgmax (m : Model) (feats : List String) : Nat :=
  bestFinalIndex (eRow m feats)

/-- Index of the first occurrence of `s` in a list (length of the list
when absent); used to state the first-seen-order property of the
vocabulary builder. -/
def firstIdx : List String → String → Nat
  | [], _ => 0
  | a :: l, s => if a = s then 0 else firstIdx l s + 1

/-! Concrete sample values used to instantiate theorems. -/

/-- A small consistent model: one feature `A`, labels `B`/`I`. -/
def exModel : Model :=
  ⟨0, 2, 0, 0, [1, 2], [("A", 0)], [("B", 0), ("I", 1)], 1, 2⟩

/-- Import data whose `weights` field is absent. -/
def exMissingWeights : ModelData :=
  ⟨none, some [("A", 0)], some [("B", 0), ("I", 1)], 1, 2, none⟩

/-- A sample whose syllables spell its text. -/
def exGoodSample : TrainSample := ⟨['a', 'b'], ["ab"]⟩

/-- A sample whose syllables mismatch its text (second character). -/
def exBadSample : TrainSample := ⟨['a', 'b'], ["ax"]⟩

/-! List access helper lemmas. -/

theorem getD_map_range {α : Type} (f : Nat → α) {n j : Nat} (h : j < n) (d : α) :
    ((List.range n).map f).getD j d = f j := by
  simp [List.getD_eq_getElem?_getD, List.getElem?_map, List.getElem?_range, h]

theorem map_range_getD (l : List ℚ) :
    (List.range l.length).map (fun k => l.getD k 0) = l := by
  induction l with
  | nil => rfl
  | cons x xs ih =>
      rw [List.length_cons, List.range_succ_eq_map, List.map_cons, List.map_map]
      have hc : ((fun k => (x :: xs).getD k 0) ∘ Nat.succ) = fun k => xs.getD k 0 := by
        funext k; rfl
      rw [hc, ih]
      rfl

theorem sum_map_range (n : Nat) (f : Nat → ℚ) :
    ((List.range n).map f).sum = ∑ k ∈ Finset.range n, f k := by
  induction n with
  | zero => rfl
  | succ n ih =>
      rw [List.range_succ, List.map_append, List.sum_append, Finset.sum_range_succ, ih]
      simp

theorem sum_map_getD (l : List ℚ) (f : ℚ → ℚ) :
    (l.map f).sum = ∑ j ∈ Finset.range l.length, f (l.getD j 0) := by
  induction l with
  | nil => rfl
  | cons x xs ih =>
      rw [List.map_cons, List.sum_cons, ih, List.length_cons, Finset.sum_range_succ']
      simp [add_comm]

theorem getD_zipWith (f : ℚ → ℚ → ℚ) :
    ∀ (a b : List ℚ) (j : Nat), j < a.length → j < b.length →
      (List.zipWith f a b).getD j 0 = f (a.getD j 0) (b.getD j 0)
  | [], _, _, h, _ => absurd h (by simp)
  | _ :: _, [], _, _, h => absurd h (by simp)
  | _ :: _, _ :: _, 0, _, _ => rfl
  | x :: xs, y :: ys, j + 1, ha, hb =>
      getD_zipWith f xs ys j (Nat.lt_of_succ_lt_succ ha) (Nat.lt_of_succ_lt_succ hb)

theorem backtrackRev_length : ∀ (rows : List (List Nat)) (last : Nat),
    (backtrackRev rows last).length = rows.length + 1
  | [], _ => rfl
  | row :: rest, last => by
      simp [backtrackRev, backtrackRev_length rest]

theorem predict_fold_acc_length (m : Model) :
    ∀ (rest : List (List String)) (dp : List ℚ) (acc : List (List Nat)),
      (rest.foldl (fun (st : List ℚ × List (List Nat)) feats =>
          let vs := viterbiStep m st.1 feats
          (vs.1, vs.2 :: st.2)) (dp, acc)).2.length = rest.length + acc.length
  | [], _, _ => by simp
  | feats :: rest, dp, acc => by
      rw [List.foldl_cons, predict_fold_acc_length m rest]
      simp only [List.length_cons, List.length]
      omega

/-! Association-list (`Map`) lemmas. -/

theorem mapGet_eq_none_iff (m : List (String × Nat)) (s : String) :
    mapGet m s = none ↔ s ∉ m.map Prod.fst := by
  induction m with
  | nil => simp [mapGet]
  | cons p ps ih =>
      rw [mapGet]
      by_cases h : p.1 = s
      · simp [h]
      · rw [if_neg h, ih, List.map_cons]
        constructor
        · intro hn hmem
          rcases List.mem_cons.mp hmem with he | hm
          · exact h he.symm
          · exact hn hm
        · intro hn hm
          exact hn (List.mem_cons_of_mem _ hm)

theorem mapGet_isSome_iff (m : List (String × Nat)) (s : String) :
    (mapGet m s).isSome ↔ s ∈ m.map Prod.fst := by
  rw [Option.isSome_iff_ne_none, Ne, mapGet_eq_none_iff, not_not]

theorem mapGet_mem : ∀ {m : List (String × Nat)} {s : String} {i : Nat},
    mapGet m s = some i → (s, i) ∈ m
  | p :: ps, s, i, h => by
      rw [mapGet] at h
      by_cases hp : p.1 = s
      · rw [if_pos hp, Option.some.injEq] at h
        subst hp; subst h
        exact List.mem_cons_self _ _
      · rw [if_neg hp] at h
        exact List.mem_cons_of_mem _ (mapGet_mem h)

theorem mapGet_append_left : ∀ {m1 : List (String × Nat)} (m2 : List (String × Nat))
    {s : String} {i : Nat}, mapGet m1 s = some i → mapGet (m1 ++ m2) s = some i
  | p :: ps, m2, s, i, h => by
      rw [mapGet] at h
      rw [List.cons_append, mapGet]
      by_cases hp : p.1 = s
      · rwa [if_pos hp] at h ⊢
      · rw [if_neg hp] at h ⊢
        exact mapGet_append_left m2 h

theorem mapGet_append_right : ∀ {m1 : List (String × Nat)} (m2 : List (String × Nat))
    {s : String}, mapGet m1 s = none → mapGet (m1 ++ m2) s = mapGet m2 s
  | [], _, _, _ => rfl
  | p :: ps, m2, s, h => by
      rw [mapGet] at h
      rw [List.cons_append, mapGet]
      by_cases hp : p.1 = s
      · rw [if_pos hp] at h; exact absurd h (by simp)
      · rw [if_neg hp] at h ⊢
        exact mapGet_append_right m2 h

theorem mapGet_singleton (a : String) (n : Nat) (t : String) :
    mapGet [(a, n)] t = if a = t then some n else none := by
  rw [mapGet]
  rfl

theorem entries_snd_inj : ∀ {m : List (String × Nat)}, (m.map Prod.snd).Nodup →
    ∀ {s t : String} {i : Nat}, (s, i) ∈ m → (t, i) ∈ m → s = t
  | p :: ps, h, s, t, i, hs, ht => by
      rw [List.map_cons, List.nodup_cons] at h
      rcases List.mem_cons.mp hs with hs | hs <;> rcases List.mem_cons.mp ht with ht | ht
      · exact congrArg Prod.fst (hs.trans ht.symm)
      · exfalso; apply h.1
        have hi : i = p.2 := congrArg Prod.snd hs
        exact hi ▸ List.mem_map_of_mem Prod.snd ht
      · exfalso; apply h.1
        have hi : i = p.2 := congrArg Prod.snd ht
        exact hi ▸ List.mem_map_of_mem Prod.snd hs
      · exact entries_snd_inj h.2 hs ht

theorem keys_nodup_snd_eq : ∀ {m : List (String × Nat)}, (m.map Prod.fst).Nodup →
    ∀ {s : String} {i j : Nat}, (s, i) ∈ m → (s, j) ∈ m → i = j
  | p :: ps, h, s, i, j, hi, hj => by
      rw [List.map_cons, List.nodup_cons] at h
      rcases List.mem_cons.mp hi with hi | hi <;> rcases List.mem_cons.mp hj with hj | hj
      · exact congrArg Prod.snd (hi.trans hj.symm)
      · exfalso; apply h.1
        have hv : s = p.1 := congrArg Prod.fst hi
        exact hv ▸ List.mem_map_of_mem Prod.fst hj
      · exfalso; apply h.1
        have hv : s = p.1 := congrArg Prod.fst hj
        exact hv ▸ List.mem_map_of_mem Prod.fst hi
      · exact keys_nodup_snd_eq h.2 hi hj

/-! Invariants of the vocabulary builder (`insertKey` folds). -/

theorem insertKey_snds {m : List (String × Nat)}
    (h : m.map Prod.snd = List.range m.length) (s : String) :
    (insertKey m s).map Prod.snd = List.range (insertKey m s).length := by
  rw [insertKey]; split
  · exact h
  · simp [h, List.range_succ]

theorem insertKey_keys_nodup {m : List (String × Nat)}
    (h : (m.map Prod.fst).Nodup) (s : String) :
    ((insertKey m s).map Prod.fst).Nodup := by
  rw [insertKey]; split
  · exact h
  · rename_i hnone
    rw [List.map_append]
    refine h.append (List.nodup_singleton s) ?_
    intro a ha hb
    rw [List.map_singleton, List.mem_singleton] at hb
    subst hb
    exact (mapGet_eq_none_iff m a).mp
      (Option.not_isSome_iff_eq_none.mp hnone) ha

theorem mem_keys_insertKey {m : List (String × Nat)} {s' s : String} :
    s' ∈ (insertKey m s).map Prod.fst ↔ s' ∈ m.map Prod.fst ∨ s' = s := by
  rw [insertKey]; split
  · rename_i hsome
    refine ⟨Or.inl, ?_⟩
    rintro (h | rfl)
    · exact h
    · exact (mapGet_isSome_iff m s').mp hsome
  · simp

theorem mapGet_insertKey_stable {m : List (String × Nat)} {s' s : String} {i : Nat}
    (h : mapGet m s' = some i) : mapGet (insertKey m s) s' = some i := by
  rw [insertKey]; split
  · exact h
  · exact mapGet_append_left _ h

theorem foldl_insertKey_snds : ∀ (l : List String) {m : List (String × Nat)},
    m.map Prod.snd = List.range m.length →
    (l.foldl insertKey m).map Prod.snd = List.range (l.foldl insertKey m).length
  | [], _, h => h
  | s :: l, m, h => foldl_insertKey_snds l (insertKey_snds h s)

theorem foldl_insertKey_keys_nodup : ∀ (l : List String) {m : List (String × Nat)},
    (m.map Prod.fst).Nodup → ((l.foldl insertKey m).map Prod.fst).Nodup
  | [], _, h => h
  | s :: l, m, h => foldl_insertKey_keys_nodup l (insertKey_keys_nodup h s)

theorem mem_keys_foldl_insertKey : ∀ (l : List String) (m : List (String × Nat)) (s : String),
    s ∈ (l.foldl insertKey m).map Prod.fst ↔ s ∈ m.map Prod.fst ∨ s ∈ l
  | [], m, s => by simp
  | a :: l, m, s => by
      rw [List.foldl_cons, mem_keys_foldl_insertKey l, mem_keys_insertKey, List.mem_cons]
      tauto

theorem mapGet_foldl_insertKey_stable : ∀ (l : List String) {m : List (String × Nat)}
    {s : String} {i : Nat}, mapGet m s = some i →
    mapGet (l.foldl insertKey m) s = some i
  | [], _, _, _, h => h
  | a :: l, m, s, i, h =>
      mapGet_foldl_insertKey_stable l (mapGet_insertKey_stable h)

theorem buildMap_snds (stream : List String) :
    (buildMap stream).map Prod.snd = List.range (buildMap stream).length :=
  foldl_insertKey_snds stream rfl

theorem buildMap_keys_nodup (stream : List String) :
    ((buildMap stream).map Prod.fst).Nodup :=
  foldl_insertKey_keys_nodup stream List.nodup_nil

theorem mem_keys_buildMap {stream : List String} {s : String} :
    s ∈ (buildMap stream).map Prod.fst ↔ s ∈ stream := by
  rw [buildMap, mem_keys_foldl_insertKey]
  simp

theorem mapGet_lt_length {m : List (String × Nat)}
    (hsnd : m.map Prod.snd = List.range m.length) {s : String} {i : Nat}
    (h : mapGet m s = some i) : i < m.length := by
  have hmem : i ∈ m.map Prod.snd := List.mem_map_of_mem Prod.snd (mapGet_mem h)
  rw [hsnd] at hmem
  exact List.mem_range.mp hmem

/-! The first-seen-order property. -/

theorem firstIdx_lt_length : ∀ {l : List String} {s : String}, s ∈ l →
    firstIdx l s < l.length
  | a :: l, s, h => by
      rw [firstIdx]
      by_cases ha : a = s
      · simp [ha]
      · rw [if_neg ha, List.length_cons]
        have : s ∈ l := by
          rcases List.mem_cons.mp h with h | h
          · exact absurd h.symm ha
          · exact h
        exact Nat.succ_lt_succ (firstIdx_lt_length this)

theorem firstIdx_append_left : ∀ {l : List String} (l2 : List String) {s : String},
    s ∈ l → firstIdx (l ++ l2) s = firstIdx l s
  | a :: l, l2, s, h => by
      rw [List.cons_append, firstIdx, firstIdx]
      by_cases ha : a = s
      · rw [if_pos ha, if_pos ha]
      · rw [if_neg ha, if_neg ha]
        have : s ∈ l := by
          rcases List.mem_cons.mp h with h | h
          · exact absurd h.symm ha
          · exact h
        rw [firstIdx_append_left l2 this]

theorem firstIdx_append_right : ∀ {l : List String} (l2 : List String) {s : String},
    s ∉ l → firstIdx (l ++ l2) s = l.length + firstIdx l2 s
  | [], l2, s, _ => by simp [firstIdx]
  | a :: l, l2, s, h => by
      rw [List.cons_append, firstIdx]
      have ha : ¬a = s := fun e => h (e ▸ List.mem_cons_self a l)
      rw [if_neg ha, firstIdx_append_right l2 (fun hs => h (List.mem_cons_of_mem a hs)),
        List.length_cons]
      omega

theorem buildMap_snoc (l : List String) (a : String) :
    buildMap (l ++ [a]) = insertKey (buildMap l) a := by
  rw [buildMap, buildMap, List.foldl_append]
  rfl

theorem buildMap_ord (stream : List String) : ∀ {s t : String} {i j : Nat},
    mapGet (buildMap stream) s = some i → mapGet (buildMap stream) t = some j →
    i < j → firstIdx stream s < firstIdx stream t := by
  induction stream using List.reverseRecOn with
  | nil =>
      intro s t i j hs _ _
      exact absurd hs (by rw [buildMap]; simp [mapGet])
  | append_singleton l a ih =>
      intro s t i j hs ht hij
      rw [buildMap_snoc, insertKey] at hs ht
      by_cases hpres : (mapGet (buildMap l) a).isSome
      · rw [if_pos hpres] at hs ht
        have hsl : s ∈ l := by
          rw [← mem_keys_buildMap]
          exact (mapGet_isSome_iff _ _).mp (by rw [hs]; rfl)
        have htl : t ∈ l := by
          rw [← mem_keys_buildMap]
          exact (mapGet_isSome_iff _ _).mp (by rw [ht]; rfl)
        rw [firstIdx_append_left _ hsl, firstIdx_append_left _ htl]
        exact ih hs ht hij
      · rw [if_neg hpres] at hs ht
        have hanone : mapGet (buildMap l) a = none :=
          Option.not_isSome_iff_eq_none.mp hpres
        have hal : a ∉ l := by
          rw [← mem_keys_buildMap, ← mapGet_isSome_iff]
          exact hpres
        cases hms : mapGet (buildMap l) s with
        | some i' =>
            have hs' : i' = i := by
              have := mapGet_append_left [(a, (buildMap l).length)] hms
              rw [this] at hs
              exact Option.some.injEq .. ▸ hs
            cases hmt : mapGet (buildMap l) t with
            | some j' =>
                have ht' : j' = j := by
                  have := mapGet_append_left [(a, (buildMap l).length)] hmt
                  rw [this] at ht
                  exact Option.some.injEq .. ▸ ht
                have hsl : s ∈ l := by
                  rw [← mem_keys_buildMap, ← mapGet_isSome_iff]
                  rw [hms]; rfl
                have htl : t ∈ l := by
                  rw [← mem_keys_buildMap, ← mapGet_isSome_iff]
                  rw [hmt]; rfl
                rw [firstIdx_append_left _ hsl, firstIdx_append_left _ htl]
                exact ih hms hmt (hs' ▸ ht' ▸ hij)
            | none =>
                rw [mapGet_append_right _ hmt, mapGet_singleton] at ht
                by_cases hat : a = t
                · have hsl : s ∈ l := by
                    rw [← mem_keys_buildMap, ← mapGet_isSome_iff]
                    rw [hms]; rfl
                  subst hat
                  rw [firstIdx_append_left _ hsl, firstIdx_append_right _ hal]
                  have h0 : firstIdx [a] a = 0 := by rw [firstIdx, if_pos rfl]
                  rw [h0, Nat.add_zero]
                  exact firstIdx_lt_length hsl
                · rw [if_neg hat] at ht
                  exact absurd ht (by simp)
        | none =>
            rw [mapGet_append_right _ hms, mapGet_singleton] at hs
            by_cases has : a = s
            · rw [if_pos has, Option.some.injEq] at hs
              exfalso
              cases hmt : mapGet (buildMap l) t with
              | some j' =>
                  have ht' : j' = j := by
                    have := mapGet_append_left [(a, (buildMap l).length)] hmt
                    rw [this] at ht
                    exact Option.some.injEq .. ▸ ht
                  have hjl : j' < (buildMap l).length :=
                    mapGet_lt_length (buildMap_snds l) hmt
                  omega
              | none =>
                  rw [mapGet_append_right _ hmt, mapGet_singleton] at ht
                  by_cases hat : a = t
                  · rw [if_pos hat, Option.some.injEq] at ht
                    omega
                  · rw [if_neg hat] at ht
                    exact absurd ht (by simp)
            · rw [if_neg has] at hs
              exact absurd hs (by simp)

theorem buildMap_ord_iff (stream : List String) {s t : String} {i j : Nat}
    (hs : mapGet (buildMap stream) s = some i)
    (ht : mapGet (buildMap stream) t = some j) :
    i < j ↔ firstIdx stream s < firstIdx stream t := by
  constructor
  · exact buildMap_ord stream hs ht
  · intro hlt
    rcases Nat.lt_trichotomy i j with h | h | h
    · exact h
    · exfalso
      have : s = t := by
        refine entries_snd_inj ?_ (mapGet_mem hs) (h ▸ mapGet_mem ht)
        rw [buildMap_snds]
        exact List.nodup_range _
      rw [this] at hlt
      exact Nat.lt_irrefl _ hlt
    · exact absurd (buildMap_ord stream ht hs h) (by omega)

/-- The nested feature-mapping loops equal the fold over the flattened
feature stream. -/
theorem buildFeatureMap_eq (seqs : List (List (List String))) :
    buildFeatureMap seqs = buildMap (seqs.flatten.flatten) := by
  rw [buildFeatureMap, buildMap, List.foldl_flatten, List.foldl_flatten]

/-- The label-mapping loop equals the fold over the flattened labels. -/
theorem buildLabelMap_eq (labels : List (List String)) :
    buildLabelMap labels = buildMap labels.flatten := by
  rw [buildLabelMap, buildMap, List.foldl_flatten]

/-! `Map.set` / `new Map(entries)` lemmas (serialization round trip). -/

theorem mapSet_keys (m : List (String × Nat)) (k : String) (v : Nat) :
    (mapSet m k v).map Prod.fst =
      if (mapGet m k).isSome then m.map Prod.fst else m.map Prod.fst ++ [k] := by
  rw [mapSet]; split
  · rw [List.map_map]
    apply List.map_congr_left
    intro p _
    by_cases hp : p.1 = k
    · simp [hp]
    · simp [hp]
  · simp

theorem mapSet_keys_nodup {m : List (String × Nat)} (h : (m.map Prod.fst).Nodup)
    (k : String) (v : Nat) : ((mapSet m k v).map Prod.fst).Nodup := by
  rw [mapSet_keys]; split
  · exact h
  · rename_i hnone
    refine h.append (List.nodup_singleton k) ?_
    intro a ha hb
    rw [List.mem_singleton] at hb
    subst hb
    exact (mapGet_eq_none_iff m a).mp (Option.not_isSome_iff_eq_none.mp hnone) ha

theorem foldl_mapSet_keys_nodup : ∀ (l : List (String × Nat)) {m : List (String × Nat)},
    (m.map Prod.fst).Nodup →
    ((l.foldl (fun m' p => mapSet m' p.1 p.2) m).map Prod.fst).Nodup
  | [], _, h => h
  | p :: ps, m, h => foldl_mapSet_keys_nodup ps (mapSet_keys_nodup h p.1 p.2)

theorem mapOfEntries_keys_nodup (l : List (String × Nat)) :
    ((mapOfEntries l).map Prod.fst).Nodup :=
  foldl_mapSet_keys_nodup l List.nodup_nil

theorem foldl_mapSet_append : ∀ (l : List (String × Nat)) (acc : List (String × Nat)),
    ((acc ++ l).map Prod.fst).Nodup →
    l.foldl (fun m' p => mapSet m' p.1 p.2) acc = acc ++ l
  | [], acc, _ => by simp
  | p :: ps, acc, h => by
      have hget : mapGet acc p.1 = none := by
        rw [mapGet_eq_none_iff]
        intro hmem
        rw [List.map_append] at h
        have hdisj := List.disjoint_of_nodup_append h
        exact hdisj hmem (by rw [List.map_cons]; exact List.mem_cons_self _ _)
      have hset : mapSet acc p.1 p.2 = acc ++ [p] := by
        rw [mapSet, hget]
        simp
      rw [List.foldl_cons, hset, foldl_mapSet_append ps (acc ++ [p]) (by
        rw [List.append_assoc]
        exact h)]
      simp

theorem mapOfEntries_self (l : List (String × Nat))
    (h : (l.map Prod.fst).Nodup) : mapOfEntries l = l := by
  have := foldl_mapSet_append l [] (by simpa using h)
  simpa [mapOfEntries] using this

/-! The strict-`>` max scan: full characterization. -/

theorem argmaxFrom_spec : ∀ (xs : List ℚ) (bi : Nat) (bv : ℚ) (i : Nat),
    bv ≤ (argmaxFrom bi bv i xs).2
    ∧ (∀ t, t < xs.length → xs.getD t 0 ≤ (argmaxFrom bi bv i xs).2)
    ∧ (((argmaxFrom bi bv i xs).1 = bi ∧ (argmaxFrom bi bv i xs).2 = bv)
       ∨ (∃ t, t < xs.length ∧ (argmaxFrom bi bv i xs).1 = i + t
           ∧ (argmaxFrom bi bv i xs).2 = xs.getD t 0
           ∧ bv < (argmaxFrom bi bv i xs).2
           ∧ ∀ u, u < t → xs.getD u 0 < (argmaxFrom bi bv i xs).2))
  | [], bi, bv, i => ⟨le_refl _, fun t ht => absurd ht (by simp), Or.inl ⟨rfl, rfl⟩⟩
  | v :: vs, bi, bv, i => by
      rw [argmaxFrom]
      by_cases hv : bv < v
      · rw [if_pos hv]
        obtain ⟨h1, h2, h3⟩ := argmaxFrom_spec vs i v (i + 1)
        refine ⟨le_of_lt (lt_of_lt_of_le hv h1), ?_, ?_⟩
        · intro t ht
          cases t with
          | zero => exact h1
          | succ u => exact h2 u (by simpa using ht)
        · rcases h3 with ⟨hi', hv'⟩ | ⟨t, ht, hti, htv, hlt, hbefore⟩
          · refine Or.inr ⟨0, by simp, by rw [hi']; omega, by rw [hv']; rfl,
              by rw [hv']; exact hv, fun u hu => absurd hu (by omega)⟩
          · refine Or.inr ⟨t + 1, by simpa using ht, by rw [hti]; omega, htv,
              lt_trans hv hlt, ?_⟩
            intro u hu
            cases u with
            | zero => exact hlt
            | succ u' => exact hbefore u' (by omega)
      · rw [if_neg hv]
        obtain ⟨h1, h2, h3⟩ := argmaxFrom_spec vs bi bv (i + 1)
        have hvb : v ≤ bv := not_lt.mp hv
        refine ⟨h1, ?_, ?_⟩
        · intro t ht
          cases t with
          | zero => exact le_trans hvb h1
          | succ u => exact h2 u (by simpa using ht)
        · rcases h3 with ⟨hi', hv'⟩ | ⟨t, ht, hti, htv, hlt, hbefore⟩
          · exact Or.inl ⟨hi', hv'⟩
          · refine Or.inr ⟨t + 1, by simpa using ht, by rw [hti]; omega, htv, hlt, ?_⟩
            intro u hu
            cases u with
            | zero => exact lt_of_le_of_lt hvb hlt
            | succ u' => exact hbefore u' (by omega)

/-- First-maximum characterization of `argmaxFirst` on the nonempty list
`x :: xs`: the returned index is in range, attains the returned value,
that value bounds every entry, and every entry strictly before the
returned index is strictly below it. -/
theorem argmaxFirst_spec (x : ℚ) (xs : List ℚ) :
    (argmaxFirst x xs).1 < (x :: xs).length
    ∧ (x :: xs).getD (argmaxFirst x xs).1 0 = (argmaxFirst x xs).2
    ∧ (∀ k, k < (x :: xs).length → (x :: xs).getD k 0 ≤ (argmaxFirst x xs).2)
    ∧ (∀ k, k < (argmaxFirst x xs).1 → (x :: xs).getD k 0 < (argmaxFirst x xs).2) := by
  obtain ⟨h1, h2, h3⟩ := argmaxFrom_spec xs 0 x 1
  rw [argmaxFirst]
  rcases h3 with ⟨hi', hv'⟩ | ⟨t, ht, hti, htv, hlt, hbefore⟩
  · refine ⟨by rw [hi']; simp, by rw [hi', hv']; rfl, ?_, ?_⟩
    · intro k hk
      cases k with
      | zero => simp [List.getD_cons_zero, hv']
      | succ u => exact h2 u (by simpa using hk)
    · intro k hk
      rw [hi'] at hk
      exact absurd hk (by omega)
  · refine ⟨by rw [hti]; simp only [List.length_cons]; omega,
      by rw [hti, Nat.add_comm 1 t, List.getD_cons_succ]; exact htv.symm, ?_, ?_⟩
    · intro k hk
      cases k with
      | zero => exact le_of_lt hlt
      | succ u => exact h2 u (by simpa using hk)
    · intro k hk
      rw [hti] at hk
      cases k with
      | zero => exact hlt
      | succ u => exact hbefore u (by omega)

/-- The `dp`/backpointer entries of `viterbiStep` at column `j` are the
value/index of the strict-`>` scan over that column's candidate list. -/
theorem viterbiStep_entry (m : Model) (prev : List ℚ) (feats : List String) {j : Nat}
    (hj : j < m.numLabels) :
    ∃ c cs, (List.range m.numLabels).map
        (fun k => prev.getD k 0 + computeTransitionScore m k j + computeScore m feats j)
        = c :: cs
      ∧ (viterbiStep m prev feats).1.getD j 0 = (argmaxFirst c cs).2
      ∧ (viterbiStep m prev feats).2.getD j 0 = (argmaxFirst c cs).1 := by
  cases hL : (List.range m.numLabels).map
      (fun k => prev.getD k 0 + computeTransitionScore m k j + computeScore m feats j) with
  | nil =>
      exfalso
      have : (List.range m.numLabels).length = 0 := by
        rw [← List.length_map (List.range m.numLabels)
          (fun k => prev.getD k 0 + computeTransitionScore m k j + computeScore m feats j), hL]
        rfl
      rw [List.length_range] at this
      omega
  | cons c cs =>
      refine ⟨c, cs, rfl, ?_, ?_⟩
      · rw [viterbiStep]
        simp only [List.map_map]
        rw [getD_map_range _ hj]
        simp only [Function.comp]
        rw [hL]
      · rw [viterbiStep]
        simp only [List.map_map]
        rw [getD_map_range _ hj]
        simp only [Function.comp]
        rw [hL]

/-! Forward-backward structure lemmas. -/

theorem getD_eq_getElem' {α : Type} (l : List α) (d : α) {i : Nat} (h : i < l.length) :
    l.getD i d = l[i] := by
  rw [List.getD_eq_getElem?_getD, List.getElem?_eq_getElem h]
  rfl

theorem getD_replicate' {α : Type} (a d : α) {n j : Nat} (h : j < n) :
    (List.replicate n a).getD j d = a := by
  rw [getD_eq_getElem' _ _ (by simpa using h)]
  exact List.getElem_replicate ..

theorem scanl_getD_zero {α β : Type} (f : α → β → α) (d : α) :
    ∀ (l : List β) (b : α), (List.scanl f b l).getD 0 d = b
  | [], _ => rfl
  | _ :: _, _ => rfl

theorem scanl_getD_succ {α β : Type} (f : α → β → α) (d : α) (d' : β) :
    ∀ (l : List β) (b : α) (i : Nat), i < l.length →
      (List.scanl f b l).getD (i + 1) d = f ((List.scanl f b l).getD i d) (l.getD i d')
  | x :: xs, b, 0, _ => by
      rw [List.scanl_cons, List.singleton_append, List.getD_cons_succ,
        List.getD_cons_zero, List.getD_cons_zero]
      exact scanl_getD_zero f d xs (f b x)
  | x :: xs, b, i + 1, h => by
      rw [List.scanl_cons, List.singleton_append, List.getD_cons_succ,
        List.getD_cons_succ, List.getD_cons_succ]
      exact scanl_getD_succ f d d' xs (f b x) i (by simpa using h)

theorem mem_scanl {α β : Type} (f : α → β → α) :
    ∀ (l : List β) (b : α) {c : α}, c ∈ List.scanl f b l → c = b ∨ ∃ a x, c = f a x
  | [], b, c, h => by
      rw [List.scanl_nil, List.mem_singleton] at h
      exact Or.inl h
  | x :: xs, b, c, h => by
      rw [List.scanl_cons, List.singleton_append] at h
      rcases List.mem_cons.mp h with h | h
      · exact Or.inl h
      · rcases mem_scanl f xs (f b x) h with h | h
        · exact Or.inr ⟨b, x, h⟩
        · exact Or.inr h

theorem alphaStep_length (m : Model) (expf : ℚ → ℚ) (prev : List ℚ) (feats : List String) :
    (alphaStep m expf prev feats).length = m.numLabels := by
  rw [alphaStep, List.length_map, List.length_range]

theorem betaStep_length (m : Model) (expf : ℚ → ℚ) (nxt : List ℚ) (feats : List String) :
    (betaStep m expf nxt feats).length = m.numLabels := by
  rw [betaStep, List.length_map, List.length_range]

theorem alphaRows_length (m : Model) (expf : ℚ → ℚ) :
    ∀ seq : List (List String), (alphaRows m expf seq).length = seq.length
  | [] => rfl
  | _ :: rest => by rw [alphaRows, List.length_scanl, List.length_cons]

theorem alphaRows_row_length (m : Model) (expf : ℚ → ℚ) (seq : List (List String))
    {i : Nat} (hi : i < (alphaRows m expf seq).length) :
    ((alphaRows m expf seq).getD i []).length = m.numLabels := by
  cases seq with
  | nil => rw [alphaRows] at hi; exact absurd hi (by simp)
  | cons f0 rest =>
      have hmem : (alphaRows m expf (f0 :: rest)).getD i [] ∈ alphaRows m expf (f0 :: rest) := by
        rw [getD_eq_getElem' _ _ hi]
        exact List.getElem_mem ..
      rw [alphaRows] at hmem
      rcases mem_scanl _ _ _ hmem with h | ⟨a, x, h⟩
      · rw [alphaRows, h, List.length_map, List.length_range]
      · rw [alphaRows, h, alphaStep_length]

theorem betaRows_length (m : Model) (expf : ℚ → ℚ) :
    ∀ seq : List (List String), (betaRows m expf seq).length = seq.length
  | [] => rfl
  | [_] => rfl
  | _ :: f1 :: rest => by
      rw [betaRows, List.length_cons, betaRows_length m expf (f1 :: rest)]
      simp

theorem betaRows_row_length (m : Model) (expf : ℚ → ℚ) :
    ∀ (seq : List (List String)) {i : Nat}, i < (betaRows m expf seq).length →
      ((betaRows m expf seq).getD i []).length = m.numLabels
  | [], i, hi => absurd hi (by simp [betaRows])
  | [f0], i, hi => by
      rw [betaRows_length] at hi
      have hi0 : i = 0 := by
        rw [List.length_singleton] at hi
        omega
      subst hi0
      rw [betaRows, List.getD_cons_zero, List.length_replicate]
  | f0 :: f1 :: rest, i, hi => by
      rw [betaRows] at hi ⊢
      cases i with
      | zero => rw [List.getD_cons_zero, betaStep_length]
      | succ i' =>
          rw [List.getD_cons_succ]
          exact betaRows_row_length m expf (f1 :: rest) (by simpa using hi)

theorem betaRows_last (m : Model) (expf : ℚ → ℚ) :
    ∀ (seq : List (List String)), seq ≠ [] →
      (betaRows m expf seq).getD (seq.length - 1) [] = List.replicate m.numLabels 1
  | [], h => absurd rfl h
  | [f0], _ => rfl
  | f0 :: f1 :: rest, _ => by
      rw [betaRows]
      have hidx : (f0 :: f1 :: rest).length - 1 = rest.length + 1 := by
        simp only [List.length_cons]
        omega
      rw [hidx, List.getD_cons_succ]
      have hrec := betaRows_last m expf (f1 :: rest) (by simp)
      rwa [show (f1 :: rest).length - 1 = rest.length by simp] at hrec

theorem betaRows_step (m : Model) (expf : ℚ → ℚ) :
    ∀ (seq : List (List String)) (i : Nat), i + 1 < seq.length →
      (betaRows m expf seq).getD i []
        = betaStep m expf ((betaRows m expf seq).getD (i + 1) []) (seq.getD (i + 1) [])
  | [], _, h => absurd h (by simp)
  | [_], _, h => absurd h (by simp)
  | f0 :: f1 :: rest, 0, _ => by
      rw [betaRows, List.getD_cons_zero, List.getD_cons_succ, List.getD_cons_succ,
        List.getD_cons_zero]
      have hh : (betaRows m expf (f1 :: rest)).headD []
          = (betaRows m expf (f1 :: rest)).getD 0 [] := by
        cases hb : betaRows m expf (f1 :: rest) <;> rfl
      rw [hh]
  | f0 :: f1 :: rest, i + 1, h => by
      rw [betaRows, List.getD_cons_succ, List.getD_cons_succ, List.getD_cons_succ]
      exact betaRows_step m expf (f1 :: rest) i (by simpa using h)

theorem getLastD_eq_getD {α : Type} : ∀ (l : List α) (d : α),
    l.getLastD d = l.getD (l.length - 1) d
  | [], _ => rfl
  | [_], _ => rfl
  | x :: y :: rest, d => by
      rw [List.getLastD_cons, getLastD_eq_getD (y :: rest) x]
      have h1 : (y :: rest).length - 1 = rest.length := by simp
      have h2 : (x :: y :: rest).length - 1 = rest.length + 1 := by
        simp only [List.length_cons]
        omega
      have hlt : rest.length < (y :: rest).length := by simp
      rw [h1, h2, List.getD_cons_succ, getD_eq_getElem' _ _ hlt, getD_eq_getElem' _ _ hlt]

theorem sum_eq_sum_getD (l : List ℚ) :
    l.sum = ∑ j ∈ Finset.range l.length, l.getD j 0 := by
  simpa using sum_map_getD l id

/-! Training-loop structure lemmas. -/

theorem foldl_length_invariant {α : Type} :
    ∀ (l : List α) (g : List ℚ) (F : List ℚ → α → List ℚ),
      (∀ g' a, (F g' a).length = g'.length) → (l.foldl F g).length = g.length
  | [], _, _, _ => rfl
  | a :: l, g, F, h => by
      rw [List.foldl_cons, foldl_length_invariant l (F g a) F h, h]

theorem bufAdd_length (g : List ℚ) (i : Nat) (v : ℚ) : (bufAdd g i v).length = g.length := by
  rw [bufAdd, List.length_set]

theorem updateGradients_length (m : Model) (seq : List (List String)) (labs : List String)
    (alpha beta : List (List ℚ)) (Z : ℚ) (g0 : List ℚ) :
    (updateGradients m seq labs alpha beta Z g0).length = g0.length := by
  rw [updateGradients]
  apply foldl_length_invariant
  intro g i
  have hmarg : ∀ (g' : List ℚ), ((List.range m.numLabels).foldl (fun g j =>
      (seq.getD i []).foldl (fun g f =>
        match mapGet m.featureMap f with
        | some fi => bufAdd g (fi * m.numLabels + j)
            (-((alpha.getD i []).getD j 0 * (beta.getD i []).getD j 0 / Z))
        | none => g) g) g').length = g'.length := by
    intro g'
    apply foldl_length_invariant
    intro g'' j
    apply foldl_length_invariant
    intro g3 f
    cases mapGet m.featureMap f with
    | some fi => exact bufAdd_length ..
    | none => rfl
  have hemp : ∀ (g' : List ℚ), ((seq.getD i []).foldl (fun g f =>
      match mapGet m.featureMap f, mapGet m.labelMap (labs.getD i "") with
      | some fi, some li => bufAdd g (fi * m.numLabels + li) 1
      | _, _ => g) g').length = g'.length := by
    intro g'
    apply foldl_length_invariant
    intro g'' f
    cases mapGet m.featureMap f with
    | some fi =>
        cases mapGet m.labelMap (labs.getD i "") with
        | some li => exact bufAdd_length ..
        | none => rfl
    | none => rfl
  rw [hemp, hmarg]

theorem foldl_pair_snd_length {α : Type} :
    ∀ (l : List α) (acc : ℚ × List ℚ) (F : ℚ × List ℚ → α → ℚ × List ℚ),
      (∀ acc' a, ((F acc' a).2).length = acc'.2.length) →
      ((l.foldl F acc).2).length = acc.2.length
  | [], _, _, _ => rfl
  | a :: l, acc, F, h => by
      rw [List.foldl_cons, foldl_pair_snd_length l (F acc a) F h, h]

theorem corpusPass_grads_length (m : Model) (expf logf : ℚ → ℚ)
    (seqs : List (List (List String))) (labels : List (List String)) :
    (corpusPass m expf logf seqs labels).2.length = m.weights.length := by
  rw [corpusPass]
  rw [foldl_pair_snd_length]
  · rw [List.length_replicate]
  · intro acc i
    exact updateGradients_length ..

/-! Zero-transition reduction lemmas (claim C10). -/

theorem argmaxFrom_map_add (c : ℚ) :
    ∀ (xs : List ℚ) (bi : Nat) (bv : ℚ) (i : Nat),
      argmaxFrom bi (bv + c) i (xs.map (fun x => x + c))
        = ((argmaxFrom bi bv i xs).1, (argmaxFrom bi bv i xs).2 + c)
  | [], _, _, _ => rfl
  | v :: vs, bi, bv, i => by
      rw [List.map_cons, argmaxFrom, argmaxFrom]
      by_cases h : bv < v
      · rw [if_pos (by exact add_lt_add_right h c), if_pos h]
        exact argmaxFrom_map_add c vs i v (i + 1)
      · rw [if_neg (fun hc => h (lt_of_add_lt_add_right hc)), if_neg h]
        exact argmaxFrom_map_add c vs bi bv (i + 1)

theorem argmaxFirst_map_add (c : ℚ) (x : ℚ) (xs : List ℚ) :
    argmaxFirst (x + c) (xs.map (fun y => y + c))
      = ((argmaxFirst x xs).1, (argmaxFirst x xs).2 + c) :=
  argmaxFrom_map_add c xs 0 x 1

theorem bestFinalIndex_map_add (c : ℚ) (x : ℚ) (xs : List ℚ) :
    bestFinalIndex ((x :: xs).map (fun y => y + c)) = bestFinalIndex (x :: xs) := by
  rw [List.map_cons, bestFinalIndex, bestFinalIndex, argmaxFirst_map_add]

/-- With every transition score equal to 0, a Viterbi candidate column
is the previous `dp` row shifted by that column's emission score. -/
theorem cands_zero_trans (m : Model)
    (T0 : ∀ a b, computeTransitionScore m a b = 0) (prev : List ℚ)
    (hlen : prev.length = m.numLabels) (feats : List String) (j : Nat) :
    (List.range m.numLabels).map
        (fun k => prev.getD k 0 + computeTransitionScore m k j + computeScore m feats j)
      = prev.map (fun x => x + computeScore m feats j) := by
  conv_rhs => rw [← map_range_getD prev, List.map_map, hlen]
  apply List.map_congr_left
  intro k _
  simp only [Function.comp]
  rw [T0, add_zero]

/-- `viterbiStep` under all-zero transitions: the new `dp` row is the
emission row shifted by the previous row's maximum, and every
backpointer is the previous row's first argmax. -/
theorem viterbiStep_zero_trans (m : Model)
    (T0 : ∀ a b, computeTransitionScore m a b = 0) (p : ℚ) (ps : List ℚ)
    (hlen : (p :: ps).length = m.numLabels) (feats : List String) :
    (viterbiStep m (p :: ps) feats).1
      = (List.range m.numLabels).map
          (fun j => (argmaxFirst p ps).2 + computeScore m feats j)
    ∧ (viterbiStep m (p :: ps) feats).2
      = (List.range m.numLabels).map (fun _ => (argmaxFirst p ps).1) := by
  have hcol : ∀ j, (match (List.range m.numLabels).map
      (fun k => (p :: ps).getD k 0 + computeTransitionScore m k j + computeScore m feats j) with
      | [] => (0, (0 : ℚ))
      | c :: cs => argmaxFirst c cs)
      = ((argmaxFirst p ps).1, (argmaxFirst p ps).2 + computeScore m feats j) := by
    intro j
    rw [cands_zero_trans m T0 (p :: ps) hlen feats j, List.map_cons]
    show argmaxFirst (p + computeScore m feats j)
        (ps.map (fun y => y + computeScore m feats j)) = _
    rw [argmaxFirst_map_add]
  constructor
  · show ((List.range m.numLabels).map _).map Prod.snd = _
    rw [List.map_map]
    apply List.map_congr_left
    intro j _
    simp only [Function.comp]
    rw [hcol j]
  · show ((List.range m.numLabels).map _).map Prod.fst = _
    rw [List.map_map]
    apply List.map_congr_left
    intro j _
    simp only [Function.comp]
    rw [hcol j]

theorem eRow_length (m : Model) (feats : List String) :
    (eRow m feats).length = m.numLabels := by
  rw [eRow, List.length_map, List.length_range]

/-- Invariant of the Viterbi fold when every transition score is 0: the
`dp` row stays the current position's emission row up to a constant
shift, and backtracking yields the position-wise emission argmaxes. -/
theorem predict_fold_zero_trans (m : Model)
    (T0 : ∀ a b, computeTransitionScore m a b = 0) (hL : 0 < m.numLabels)
    (f0 : List String) :
    ∀ (rest : List (List String)),
      (∃ C, (rest.foldl (fun (st : List ℚ × List (List Nat)) feats =>
            let vs := viterbiStep m st.1 feats
            (vs.1, vs.2 :: st.2)) (eRow m f0, ([] : List (List Nat)))).1
          = (eRow m (rest.getLastD f0)).map (fun x => x + C))
      ∧ backtrackRev
          (rest.foldl (fun (st : List ℚ × List (List Nat)) feats =>
            let vs := viterbiStep m st.1 feats
            (vs.1, vs.2 :: st.2)) (eRow m f0, ([] : List (List Nat)))).2
          (bestFinalIndex
            (rest.foldl (fun (st : List ℚ × List (List Nat)) feats =>
              let vs := viterbiStep m st.1 feats
              (vs.1, vs.2 :: st.2)) (eRow m f0, ([] : List (List Nat)))).1)
        = (f0 :: rest).map (emissionArgmax m) := by
  intro rest
  induction rest using List.reverseRecOn with
  | nil =>
      refine ⟨⟨0, ?_⟩, ?_⟩
      · simp
      · rw [List.foldl_nil, List.map_cons, List.map_nil]
        rfl
  | append_singleton fs g ih =>
      obtain ⟨⟨C, hdp⟩, hbt⟩ := ih
      have hstep : ((fs ++ [g]).foldl (fun (st : List ℚ × List (List Nat)) feats =>
            let vs := viterbiStep m st.1 feats
            (vs.1, vs.2 :: st.2)) (eRow m f0, ([] : List (List Nat))))
          = ((viterbiStep m ((fs.foldl (fun (st : List ℚ × List (List Nat)) feats =>
                let vs := viterbiStep m st.1 feats
                (vs.1, vs.2 :: st.2)) (eRow m f0, ([] : List (List Nat)))).1) g).1,
             (viterbiStep m ((fs.foldl (fun (st : List ℚ × List (List Nat)) feats =>
                let vs := viterbiStep m st.1 feats
                (vs.1, vs.2 :: st.2)) (eRow m f0, ([] : List (List Nat)))).1) g).2
              :: (fs.foldl (fun (st : List ℚ × List (List Nat)) feats =>
                let vs := viterbiStep m st.1 feats
                (vs.1, vs.2 :: st.2)) (eRow m f0, ([] : List (List Nat)))).2) := by
        rw [List.foldl_append]
        rfl
      cases heq : eRow m (fs.getLastD f0) with
      | nil =>
          exfalso
          have := eRow_length m (fs.getLastD f0)
          rw [heq] at this
          simp at this
          omega
      | cons e0 erest =>
          rw [heq] at hdp
          rw [List.map_cons] at hdp
          have hplen : ((e0 + C) :: erest.map (fun x => x + C)).length = m.numLabels := by
            have := eRow_length m (fs.getLastD f0)
            rw [heq] at this
            simp only [List.length_cons, List.length_map] at this ⊢
            exact this
          obtain ⟨hv1, hv2⟩ := viterbiStep_zero_trans m T0 (e0 + C)
            (erest.map (fun x => x + C)) hplen g
          rw [hdp] at hstep
          rw [hstep]
          have hAm := argmaxFirst_map_add C e0 erest
          cases hg : eRow m g with
          | nil =>
              exfalso
              have := eRow_length m g
              rw [hg] at this
              simp at this
              omega
          | cons g0 grest =>
              have hC' : (viterbiStep m ((e0 + C) :: erest.map (fun x => x + C)) g).1
                  = (eRow m g).map (fun x => x + ((argmaxFirst e0 erest).2 + C)) := by
                rw [hv1, hAm, eRow, List.map_map]
                apply List.map_congr_left
                intro j _
                simp only [Function.comp]
                ring
              constructor
              · refine ⟨(argmaxFirst e0 erest).2 + C, ?_⟩
                rw [show (fs ++ [g]).getLastD f0 = g from List.getLastD_concat ..]
                exact hC'
              · have hbfi : bestFinalIndex
                    (viterbiStep m ((e0 + C) :: erest.map (fun x => x + C)) g).1
                    = emissionArgmax m g := by
                  rw [hC', hg, bestFinalIndex_map_add]
                  rw [emissionArgmax, hg]
                have hlt : emissionArgmax m g < m.numLabels := by
                  have hs1 := (argmaxFirst_spec g0 grest).1
                  have hlen : (g0 :: grest).length = m.numLabels := by
                    have := eRow_length m g
                    rw [hg] at this
                    exact this
                  rw [emissionArgmax, hg]
                  rw [bestFinalIndex]
                  omega
                rw [backtrackRev, hbfi]
                have hget : ((viterbiStep m ((e0 + C) :: erest.map (fun x => x + C)) g).2).getD
                    (emissionArgmax m g) 0 = (argmaxFirst e0 erest).1 := by
                  rw [hv2, hAm, getD_map_range _ hlt]
                have hbst : bestFinalIndex ((e0 + C) :: erest.map (fun x => x + C))
                    = (argmaxFirst e0 erest).1 := by
                  rw [bestFinalIndex, hAm]
                rw [hget]
                rw [← hbst, ← hdp]
                rw [hbt]
                simp

/-- Viterbi decoding with all transition scores 0 is position-wise
emission decoding. -/
theorem predictIds_zero_trans (m : Model)
    (T0 : ∀ a b, computeTransitionScore m a b = 0) (hL : 0 < m.numLabels) :
    ∀ (seq : List (List String)), predictIds m seq = seq.map (emissionArgmax m)
  | [] => rfl
  | f0 :: rest => (predict_fold_zero_trans m T0 hL f0 rest).2

/-- With all-zero transitions the forward step factorizes:
`alpha[i][j] = exp(score(posi,j)) · Σ_k alpha[i-1][k]`. -/
theorem alphaStep_zero_trans (m : Model) (expf : ℚ → ℚ)
    (T0 : ∀ a b, computeTransitionScore m a b = 0) (prev : List ℚ)
    (hlen : prev.length = m.numLabels) (feats : List String) {j : Nat}
    (hj : j < m.numLabels) :
    (alphaStep m expf prev feats).getD j 0
      = expf (computeScore m feats j) * prev.sum := by
  rw [alphaStep, getD_map_range _ hj]
  have hcong : (List.range m.numLabels).map
      (fun k => prev.getD k 0 * expf (computeTransitionScore m k j + computeScore m feats j))
      = (List.range m.numLabels).map
          (fun k => prev.getD k 0 * expf (computeScore m feats j)) := by
    apply List.map_congr_left
    intro k _
    rw [T0, zero_add]
  rw [hcong, sum_map_range, ← Finset.sum_mul, mul_comm]
  congr 1
  rw [sum_eq_sum_getD, hlen]

theorem alphaRows_zero_trans (m : Model) (expf : ℚ → ℚ)
    (T0 : ∀ a b, computeTransitionScore m a b = 0) :
    ∀ (seq : List (List String)) (i j : Nat), i + 1 < seq.length → j < m.numLabels →
      ((alphaRows m expf seq).getD (i + 1) []).getD j 0
        = expf (computeScore m (seq.getD (i + 1) []) j)
          * ((alphaRows m expf seq).getD i []).sum
  | [], _, _, h, _ => absurd h (by simp)
  | f0 :: rest, i, j, hsucc, hj => by
      have hi : i < rest.length := by
        rw [List.length_cons] at hsucc
        omega
      have hirows : i < (alphaRows m expf (f0 :: rest)).length := by
        rw [alphaRows_length, List.length_cons]
        omega
      have hstep : (alphaRows m expf (f0 :: rest)).getD (i + 1) []
          = alphaStep m expf ((alphaRows m expf (f0 :: rest)).getD i [])
              ((f0 :: rest).getD (i + 1) []) := by
        rw [alphaRows, scanl_getD_succ _ _ ([] : List String) rest _ i hi,
          List.getD_cons_succ]
      rw [hstep, alphaStep_zero_trans m expf T0 _
        (alphaRows_row_length m expf _ hirows) _ hj]

/-- With all-zero transitions every entry of a backward step row is the
same sum — `beta[i][·]` is constant across labels. -/
theorem betaStep_zero_trans (m : Model) (expf : ℚ → ℚ)
    (T0 : ∀ a b, computeTransitionScore m a b = 0) (nxt : List ℚ)
    (feats : List String) {j : Nat} (hj : j < m.numLabels) :
    (betaStep m expf nxt feats).getD j 0
      = ((List.range m.numLabels).map
          (fun k => nxt.getD k 0 * expf (computeScore m feats k))).sum := by
  rw [betaStep, getD_map_range _ hj]
  refine congrArg List.sum (List.map_congr_left ?_)
  intro k _
  rw [T0, zero_add]

theorem betaRows_zero_trans (m : Model) (expf : ℚ → ℚ)
    (T0 : ∀ a b, computeTransitionScore m a b = 0) (seq : List (List String))
    (i j1 j2 : Nat) (hsucc : i + 1 < seq.length) (hj1 : j1 < m.numLabels)
    (hj2 : j2 < m.numLabels) :
    ((betaRows m expf seq).getD i []).getD j1 0
      = ((betaRows m expf seq).getD i []).getD j2 0 := by
  rw [betaRows_step m expf seq i hsucc,
    betaStep_zero_trans m expf T0 _ _ hj1, betaStep_zero_trans m expf T0 _ _ hj2]

/-- A short string is never a synthetic transition-feature name
(`TRANS_<from>_<to>` has at least 8 characters). -/
theorem ne_transFeature_of_length_lt {s : String} (h : s.length < 7) (a b : Nat) :
    s ≠ transFeature a b := by
  intro he
  have hlen : (transFeature a b).length
      = (("TRANS_" ++ toString a) ++ "_").length + (toString b).length := by
    rw [transFeature, String.length_append]
  rw [String.length_append, String.length_append] at hlen
  have h6 : ("TRANS_" : String).length = 6 := by decide
  have h1 : ("_" : String).length = 1 := by decide
  rw [he] at h
  omega

/-! Claim theorems. -/

/-- Claim C7 (confirmed): `predict(seq)` always returns a sequence of
length `len(seq)`; in particular the empty sequence yields the empty
output, for every model whatsoever (no scoring is consulted: the empty
case is the first branch of `predictIds`). -/
theorem claim_C7_predict_length (m : Model) (seq : List (List String)) :
    (predict m seq).length = seq.length ∧ predict m ([] : List (List String)) = [] := by
  constructor
  · rw [predict, List.length_map]
    cases seq with
    | nil => rfl
    | cons f0 rest =>
        rw [predictIds]
        simp only []
        rw [backtrackRev_length, predict_fold_acc_length]
        simp
  · rfl

/-- Accumulator form of the `_computeScore` loop. -/
theorem computeScore_go (m : Model) (label : Nat) :
    ∀ (feats : List String) (a : ℚ),
      feats.foldl (fun score f =>
        match mapGet m.featureMap f with
        | some fi => score + m.weights.getD (fi * m.numLabels + label) 0
        | none => score) a
      = a + ((feats.filterMap (fun f => mapGet m.featureMap f)).map
          (fun fi => m.weights.getD (fi * m.numLabels + label) 0)).sum
  | [], a => by simp
  | f :: feats, a => by
      rw [List.foldl_cons]
      cases h : mapGet m.featureMap f with
      | none => simp only [h, List.filterMap_cons, computeScore_go m label feats]
      | some fi =>
          simp only [h, List.filterMap_cons, computeScore_go m label feats,
            List.map_cons, List.sum_cons]
          ring

/-- Claim C8 (confirmed): the score is the sum of
`weights[f*numLabels+label]` over exactly the active features present in
the vocabulary, and a feature string absent from the vocabulary
contributes exactly `0` wherever it occurs (and raises no error: the
function is total). -/
theorem claim_C8_score (m : Model) (feats : List String) (label : Nat) :
    computeScore m feats label
      = ((feats.filterMap (fun f => mapGet m.featureMap f)).map
          (fun fi => m.weights.getD (fi * m.numLabels + label) 0)).sum
    ∧ ∀ (pre post : List String) (f : String), mapGet m.featureMap f = none →
        computeScore m (pre ++ f :: post) label = computeScore m (pre ++ post) label := by
  constructor
  · rw [computeScore, computeScore_go]; ring
  · intro pre post f h
    rw [computeScore, computeScore, computeScore_go, computeScore_go]
    simp [h]

/-- Claim C9 (confirmed): for any training corpus, `_buildMappings`
assigns feature and label ids that are unique, exactly cover
`0..count-1` with no gaps (the id list *is* `range count`, in order),
identical strings always map to the same id, every corpus string gets an
id and only corpus strings do, and ids are ordered by first occurrence
across the corpus iteration order. -/
theorem claim_C9_mappings (seqs : List (List (List String))) (labels : List (List String)) :
    ((buildFeatureMap seqs).map Prod.snd = List.range (buildFeatureMap seqs).length
      ∧ (buildLabelMap labels).map Prod.snd = List.range (buildLabelMap labels).length)
    ∧ (((buildFeatureMap seqs).map Prod.fst).Nodup
      ∧ ((buildLabelMap labels).map Prod.fst).Nodup)
    ∧ (∀ s, s ∈ (buildFeatureMap seqs).map Prod.fst ↔ s ∈ seqs.flatten.flatten)
    ∧ (∀ s, s ∈ (buildLabelMap labels).map Prod.fst ↔ s ∈ labels.flatten)
    ∧ (∀ s i j, (s, i) ∈ buildFeatureMap seqs → (s, j) ∈ buildFeatureMap seqs → i = j)
    ∧ (∀ s i j, (s, i) ∈ buildLabelMap labels → (s, j) ∈ buildLabelMap labels → i = j)
    ∧ (∀ s t i j, mapGet (buildFeatureMap seqs) s = some i →
        mapGet (buildFeatureMap seqs) t = some j →
        (i < j ↔ firstIdx seqs.flatten.flatten s < firstIdx seqs.flatten.flatten t))
    ∧ (∀ s t i j, mapGet (buildLabelMap labels) s = some i →
        mapGet (buildLabelMap labels) t = some j →
        (i < j ↔ firstIdx labels.flatten s < firstIdx labels.flatten t)) := by
  rw [buildFeatureMap_eq, buildLabelMap_eq]
  refine ⟨⟨buildMap_snds _, buildMap_snds _⟩, ⟨buildMap_keys_nodup _, buildMap_keys_nodup _⟩,
    fun s => mem_keys_buildMap, fun s => mem_keys_buildMap, ?_, ?_, ?_, ?_⟩
  · intro s i j hi hj
    have hk : ((buildMap seqs.flatten.flatten).map Prod.fst).Nodup := buildMap_keys_nodup _
    exact keys_nodup_snd_eq hk hi hj
  · intro s i j hi hj
    exact keys_nodup_snd_eq (buildMap_keys_nodup _) hi hj
  · intro s t i j hs ht
    exact buildMap_ord_iff _ hs ht
  · intro s t i j hs ht
    exact buildMap_ord_iff _ hs ht

/-- Witness for C9 at a concrete two-feature corpus: the repeated string
`"a"` keeps id 0 and its id is below `"b"`'s exactly because it occurs
first. -/
theorem claim_C9_mappings_witness :
    (0 < 1 ↔ firstIdx ["a", "b", "a"] "a" < firstIdx ["a", "b", "a"] "b") ∧
    ((0 : Nat) = 0) :=
  ⟨(claim_C9_mappings [[["a"], ["b", "a"]]] [["B", "I", "B"]]).2.2.2.2.2.2.1
      "a" "b" 0 1 (by decide) (by decide),
   (claim_C9_mappings [[["a"], ["b", "a"]]] [["B", "I", "B"]]).2.2.2.2.1
      "a" 0 0 (by decide) (by decide)⟩

/-- Witness for C8: the unseen feature `"ZZZ"` contributes nothing. -/
theorem claim_C8_score_witness :
    computeScore exModel ["A", "ZZZ"] 0 = computeScore exModel ["A"] 0 :=
  (claim_C8_score exModel ["A"] 0).2 ["A"] [] "ZZZ" (by decide)

/-- Claim C10 (confirmed): when no string of the corpus feature stream
has the form `TRANS_<from>_<to>`, training inserts no synthetic
transition feature into the vocabulary (it only inserts observed corpus
features), so on the trained model every `_computeTransitionScore` is
exactly 0; consequently Viterbi decoding degenerates to position-wise
emission argmax, `alpha[i][j]` factorizes as
`exp(score(posi,j)) · Σ_k alpha[i-1][k]`, and every `beta[i][·]` row is
constant — forward-backward reduces to position-wise emission scoring. -/
theorem claim_C10_zero_transitions (m0 : Model) (expf logf : ℚ → ℚ)
    (seqs : List (List (List String))) (labels : List (List String))
    (hno : ∀ f ∈ seqs.flatten.flatten, ∀ a b : Nat, f ≠ transFeature a b) :
    (∀ a b, computeTransitionScore (crfTrain m0 expf logf seqs labels) a b = 0)
    ∧ (0 < (crfTrain m0 expf logf seqs labels).numLabels →
        ∀ seq, predictIds (crfTrain m0 expf logf seqs labels) seq
          = seq.map (emissionArgmax (crfTrain m0 expf logf seqs labels)))
    ∧ (∀ (expg : ℚ → ℚ) (seq : List (List String)) (i j : Nat),
        i + 1 < seq.length → j < (crfTrain m0 expf logf seqs labels).numLabels →
        ((alphaRows (crfTrain m0 expf logf seqs labels) expg seq).getD (i + 1) []).getD j 0
          = expg (computeScore (crfTrain m0 expf logf seqs labels)
                (seq.getD (i + 1) []) j)
            * ((alphaRows (crfTrain m0 expf logf seqs labels) expg seq).getD i []).sum)
    ∧ (∀ (expg : ℚ → ℚ) (seq : List (List String)) (i j1 j2 : Nat),
        i + 1 < seq.length → j1 < (crfTrain m0 expf logf seqs labels).numLabels →
        j2 < (crfTrain m0 expf logf seqs labels).numLabels →
        ((betaRows (crfTrain m0 expf logf seqs labels) expg seq).getD i []).getD j1 0
          = ((betaRows (crfTrain m0 expf logf seqs labels) expg seq).getD i []).getD j2 0) := by
  have hfm : (crfTrain m0 expf logf seqs labels).featureMap = buildFeatureMap seqs := rfl
  have hT0 : ∀ a b, computeTransitionScore (crfTrain m0 expf logf seqs labels) a b = 0 := by
    intro a b
    rw [computeTransitionScore]
    have hnone : mapGet (crfTrain m0 expf logf seqs labels).featureMap
        (transFeature a b) = none := by
      rw [hfm, buildFeatureMap_eq, mapGet_eq_none_iff]
      intro hmem
      exact hno _ (mem_keys_buildMap.mp hmem) a b rfl
    rw [hnone]
  refine ⟨hT0, ?_, ?_, ?_⟩
  · intro hL seq
    exact predictIds_zero_trans _ hT0 hL seq
  · intro expg seq i j hsucc hj
    exact alphaRows_zero_trans _ expg hT0 seq i j hsucc hj
  · intro expg seq i j1 j2 hsucc hj1 hj2
    exact betaRows_zero_trans _ expg hT0 seq i j1 j2 hsucc hj1 hj2

/-- Witness for C10: a concrete corpus of one-character feature strings
(too short to be `TRANS_…` names) trains to a model with transition
score exactly 0. -/
theorem claim_C10_zero_transitions_witness :
    computeTransitionScore (crfTrain exModel id id [[["a"], ["b"]]] [["B", "I"]]) 0 1 = 0 :=
  (claim_C10_zero_transitions exModel id id [[["a"], ["b"]]] [["B", "I"]] (by
    intro f hf a b
    have hor : f = "a" ∨ f = "b" := by simpa using hf
    rcases hor with rfl | rfl <;> exact ne_transFeature_of_length_lt (by decide) a b)).1 0 1

/-- Claim C5 (confirmed): each `CRF.train` iteration accumulates the
corpus gradient, subtracts `regularization·weight` from it and
`regularization·weight²/2` from the log-likelihood, applies exactly one
update `weight += learningRate·gradient` per weight, and the loop stops
early only when `|LL_t - LL_{t-1}| < tolerance` (checked after the
update; the first iteration can never stop, `prevLL = -Infinity`),
otherwise running to the cap, at which it just returns the weights —
not an error. -/
theorem claim_C5_training (m : Model) (expf logf : ℚ → ℚ)
    (seqs : List (List (List String))) (labels : List (List String)) :
    (trainIteration m expf logf seqs labels).2.length = m.weights.length
    ∧ (∀ j, j < m.weights.length →
        (trainIteration m expf logf seqs labels).2.getD j 0
          = m.weights.getD j 0
            + m.learningRate * ((corpusPass m expf logf seqs labels).2.getD j 0
                - m.regularization * m.weights.getD j 0))
    ∧ (trainIteration m expf logf seqs labels).1
        = (corpusPass m expf logf seqs labels).1
          - ∑ j ∈ Finset.range m.weights.length,
              m.regularization * m.weights.getD j 0 * m.weights.getD j 0 / 2
    ∧ (∀ (w : List ℚ) (prev : Option ℚ), trainAux m expf logf seqs labels 0 w prev = w)
    ∧ (∀ (fuel : Nat) (w : List ℚ), trainAux m expf logf seqs labels (fuel + 1) w none
        = trainAux m expf logf seqs labels fuel
            (trainIteration { m with weights := w } expf logf seqs labels).2
            (some (trainIteration { m with weights := w } expf logf seqs labels).1))
    ∧ (∀ (fuel : Nat) (w : List ℚ) (p : ℚ),
        trainAux m expf logf seqs labels (fuel + 1) w (some p)
          = if |(trainIteration { m with weights := w } expf logf seqs labels).1 - p|
                < m.tolerance
            then (trainIteration { m with weights := w } expf logf seqs labels).2
            else trainAux m expf logf seqs labels fuel
                (trainIteration { m with weights := w } expf logf seqs labels).2
                (some (trainIteration { m with weights := w } expf logf seqs labels).1)) := by
  have hg : (corpusPass m expf logf seqs labels).2.length = m.weights.length :=
    corpusPass_grads_length ..
  have hit2 : (trainIteration m expf logf seqs labels).2
      = List.zipWith (fun w g => w + m.learningRate * g) m.weights
          (List.zipWith (fun g w => g - m.regularization * w)
            (corpusPass m expf logf seqs labels).2 m.weights) := rfl
  have hit1 : (trainIteration m expf logf seqs labels).1
      = (corpusPass m expf logf seqs labels).1
        - (m.weights.map (fun w => m.regularization * w * w / 2)).sum := rfl
  refine ⟨?_, ?_, ?_, fun _ _ => rfl, fun _ _ => rfl, ?_⟩
  · rw [hit2, List.length_zipWith, List.length_zipWith, hg]
    omega
  · intro j hj
    have hjin : j < (List.zipWith (fun g w => g - m.regularization * w)
        (corpusPass m expf logf seqs labels).2 m.weights).length := by
      rw [List.length_zipWith, hg]
      omega
    rw [hit2, getD_zipWith _ _ _ j hj hjin,
      getD_zipWith _ _ _ j (by omega : j < (corpusPass m expf logf seqs labels).2.length) hj]
  · rw [hit1, sum_map_getD]
  · intro fuel w p
    by_cases h : |(trainIteration { m with weights := w } expf logf seqs labels).1 - p|
        < m.tolerance
    · simp [trainAux, h]
    · simp [trainAux, h]

/-- Witness for C5: the per-weight update formula at a concrete model,
corpus and weight index. -/
theorem claim_C5_training_witness :
    (trainIteration exModel id id [[["A"], ["A"]]] [["B", "I"]]).2.getD 0 0
      = exModel.weights.getD 0 0 + exModel.learningRate
          * ((corpusPass exModel id id [[["A"], ["A"]]] [["B", "I"]]).2.getD 0 0
              - exModel.regularization * exModel.weights.getD 0 0) :=
  (claim_C5_training exModel id id [[["A"], ["A"]]] [["B", "I"]]).2.1 0 (by decide)

/-- Claim C6 (confirmed): on a nonempty sequence, `_forwardBackward`
computes exactly the spec's recurrences:
`alpha[0][j] = exp(score(pos0,j))`,
`alpha[i][j] = Σ_k alpha[i-1][k]·exp(trans(k,j)+score(posi,j))`,
`beta[n-1][j] = 1`,
`beta[i][j] = Σ_k beta[i+1][k]·exp(trans(j,k)+score(pos(i+1),k))`, and
`Z = Σ_j alpha[n-1][j]`. -/
theorem claim_C6_forwardBackward (m : Model) (expf : ℚ → ℚ) (seq : List (List String))
    (hn : seq ≠ []) :
    (forwardBackward m expf seq).1.length = seq.length
    ∧ (forwardBackward m expf seq).2.1.length = seq.length
    ∧ (∀ j, j < m.numLabels →
        ((forwardBackward m expf seq).1.getD 0 []).getD j 0
          = expf (computeScore m (seq.getD 0 []) j))
    ∧ (∀ i j, i + 1 < seq.length → j < m.numLabels →
        ((forwardBackward m expf seq).1.getD (i + 1) []).getD j 0
          = ∑ k ∈ Finset.range m.numLabels,
              ((forwardBackward m expf seq).1.getD i []).getD k 0
                * expf (computeTransitionScore m k j
                    + computeScore m (seq.getD (i + 1) []) j))
    ∧ (∀ j, j < m.numLabels →
        ((forwardBackward m expf seq).2.1.getD (seq.length - 1) []).getD j 0 = 1)
    ∧ (∀ i j, i + 1 < seq.length → j < m.numLabels →
        ((forwardBackward m expf seq).2.1.getD i []).getD j 0
          = ∑ k ∈ Finset.range m.numLabels,
              ((forwardBackward m expf seq).2.1.getD (i + 1) []).getD k 0
                * expf (computeTransitionScore m j k
                    + computeScore m (seq.getD (i + 1) []) k))
    ∧ (forwardBackward m expf seq).2.2
        = ∑ j ∈ Finset.range m.numLabels,
            ((forwardBackward m expf seq).1.getD (seq.length - 1) []).getD j 0 := by
  have hA : (forwardBackward m expf seq).1 = alphaRows m expf seq := rfl
  have hB : (forwardBackward m expf seq).2.1 = betaRows m expf seq := rfl
  have hZ : (forwardBackward m expf seq).2.2 = ((alphaRows m expf seq).getLastD []).sum := rfl
  obtain ⟨f0, rest, rfl⟩ : ∃ f0 rest, seq = f0 :: rest := by
    cases seq with
    | nil => exact absurd rfl hn
    | cons f0 rest => exact ⟨f0, rest, rfl⟩
  rw [hA, hB, hZ]
  refine ⟨alphaRows_length m expf _, betaRows_length m expf _, ?_, ?_, ?_, ?_, ?_⟩
  · intro j hj
    rw [alphaRows, scanl_getD_zero, getD_map_range _ hj, List.getD_cons_zero]
  · intro i j hsucc hj
    have hi : i < rest.length := by
      rw [List.length_cons] at hsucc
      omega
    rw [alphaRows, scanl_getD_succ _ _ ([] : List String) rest _ i hi]
    rw [show (alphaStep m expf ((List.scanl (alphaStep m expf)
        ((List.range m.numLabels).map (fun j => expf (computeScore m f0 j))) rest).getD i [])
        (rest.getD i [])) = alphaStep m expf ((alphaRows m expf (f0 :: rest)).getD i [])
        ((f0 :: rest).getD (i + 1) []) by rw [alphaRows, List.getD_cons_succ]]
    rw [alphaStep, getD_map_range _ hj, sum_map_range]
    rfl
  · intro j hj
    rw [betaRows_last m expf _ (by simp), getD_replicate' _ _ hj]
  · intro i j hsucc hj
    rw [betaRows_step m expf _ i hsucc, betaStep, getD_map_range _ hj, sum_map_range]
  · rw [getLastD_eq_getD, alphaRows_length]
    have hlast : (f0 :: rest).length - 1 < (alphaRows m expf (f0 :: rest)).length := by
      rw [alphaRows_length]
      simp
    rw [sum_eq_sum_getD, alphaRows_row_length m expf _ hlast]

/-- Witness for C6 at a concrete model and sequence (with `expf = id`). -/
theorem claim_C6_forwardBackward_witness :
    (forwardBackward exModel id [["A"], ["A"]]).1.length = 2
    ∧ (forwardBackward exModel id [["A"], ["A"]]).2.2
        = ∑ j ∈ Finset.range exModel.numLabels,
            ((forwardBackward exModel id [["A"], ["A"]]).1.getD 1 []).getD j 0 :=
  ⟨(claim_C6_forwardBackward exModel id [["A"], ["A"]] (by simp)).1,
   (claim_C6_forwardBackward exModel id [["A"], ["A"]] (by simp)).2.2.2.2.2.2⟩

/-- Claim C4 (confirmed): both the max scan of the Viterbi recurrence
(the backpointer chosen by `viterbiStep` at every column) and the final
argmax over `dp[n-1][·]` (`bestFinalIndex`) pick an index attaining the
maximum such that every strictly smaller index scores strictly less —
so when several labels tie for the maximal score, the lowest id is
chosen (the last conjunct of each part). -/
theorem claim_C4_tiebreak :
    (∀ (m : Model) (prev : List ℚ) (feats : List String) (j : Nat), j < m.numLabels →
      (viterbiStep m prev feats).2.getD j 0 < m.numLabels
      ∧ (prev.getD ((viterbiStep m prev feats).2.getD j 0) 0
          + computeTransitionScore m ((viterbiStep m prev feats).2.getD j 0) j
          + computeScore m feats j)
        = (viterbiStep m prev feats).1.getD j 0
      ∧ (∀ k, k < m.numLabels →
          prev.getD k 0 + computeTransitionScore m k j + computeScore m feats j
            ≤ (viterbiStep m prev feats).1.getD j 0)
      ∧ (∀ k, k < (viterbiStep m prev feats).2.getD j 0 →
          prev.getD k 0 + computeTransitionScore m k j + computeScore m feats j
            < (viterbiStep m prev feats).1.getD j 0)
      ∧ (∀ k, k < m.numLabels →
          prev.getD k 0 + computeTransitionScore m k j + computeScore m feats j
            = (viterbiStep m prev feats).1.getD j 0 →
          (viterbiStep m prev feats).2.getD j 0 ≤ k))
    ∧ (∀ (c : ℚ) (cs : List ℚ),
        bestFinalIndex (c :: cs) < (c :: cs).length
        ∧ (∀ k, k < (c :: cs).length →
            (c :: cs).getD k 0 ≤ (c :: cs).getD (bestFinalIndex (c :: cs)) 0)
        ∧ (∀ k, k < bestFinalIndex (c :: cs) →
            (c :: cs).getD k 0 < (c :: cs).getD (bestFinalIndex (c :: cs)) 0)
        ∧ (∀ k, k < (c :: cs).length →
            (c :: cs).getD k 0 = (c :: cs).getD (bestFinalIndex (c :: cs)) 0 →
            bestFinalIndex (c :: cs) ≤ k)) := by
  constructor
  · intro m prev feats j hj
    obtain ⟨c, cs, hL, hdp, hbp⟩ := viterbiStep_entry m prev feats hj
    have hlen : (c :: cs).length = m.numLabels := by
      rw [← hL, List.length_map, List.length_range]
    have hgd : ∀ k, k < m.numLabels → (c :: cs).getD k 0
        = prev.getD k 0 + computeTransitionScore m k j + computeScore m feats j := by
      intro k hk
      rw [← hL, getD_map_range _ hk]
    obtain ⟨s1, s2, s3, s4⟩ := argmaxFirst_spec c cs
    rw [hdp, hbp]
    have hbpL : (argmaxFirst c cs).1 < m.numLabels := hlen ▸ s1
    refine ⟨hbpL, ?_, ?_, ?_, ?_⟩
    · rw [← hgd _ hbpL]; exact s2
    · intro k hk
      rw [← hgd _ hk]
      exact s3 k (by omega)
    · intro k hk
      have hkL : k < m.numLabels := lt_trans hk hbpL
      rw [← hgd _ hkL]
      exact s4 k hk
    · intro k hk heq
      by_contra hnle
      push_neg at hnle
      have hlt := s4 k hnle
      rw [hgd _ hk, heq] at hlt
      exact lt_irrefl _ hlt
  · intro c cs
    obtain ⟨s1, s2, s3, s4⟩ := argmaxFirst_spec c cs
    have hbfi : bestFinalIndex (c :: cs) = (argmaxFirst c cs).1 := rfl
    rw [hbfi, s2]
    refine ⟨s1, s3, s4, ?_⟩
    intro k hk heq
    by_contra hnle
    push_neg at hnle
    have hlt := s4 k hnle
    rw [heq] at hlt
    exact lt_irrefl _ hlt

/-- Witness for C4: concrete tied candidates (both labels of `exModel`
score equally on feature `"A"` from a zero previous row shifted) —
the scan stays within range and, at the tie `[5, 5]`, index `0` is
returned as the final argmax. -/
theorem claim_C4_tiebreak_witness :
    (viterbiStep exModel [0, 0] ["A"]).2.getD 0 0 < exModel.numLabels
    ∧ bestFinalIndex [(5 : ℚ), 5] < [(5 : ℚ), 5].length :=
  ⟨(claim_C4_tiebreak.1 exModel [0, 0] ["A"] 0 (by decide)).1,
   (claim_C4_tiebreak.2 5 [5]).1⟩

/-- Claim C3 (confirmed): the export/import/export round trip is the
identity on the exported value — weights, both `(string,id)` entry
lists, counts and hyperparameters — for every model whose index maps
have unique keys; the remaining conjuncts show every trained and every
imported model has unique keys, so the claim holds for all of them. -/
theorem claim_C3_roundtrip (m0 m : Model)
    (hf : (m.featureMap.map Prod.fst).Nodup)
    (hl : (m.labelMap.map Prod.fst).Nodup) :
    saveModel (loadModel m0 (toModelData (saveModel m))) = saveModel m
    ∧ (∀ (mi : Model) (expf logf : ℚ → ℚ) (seqs : List (List (List String)))
        (labels : List (List String)),
        ((crfTrain mi expf logf seqs labels).featureMap.map Prod.fst).Nodup
        ∧ ((crfTrain mi expf logf seqs labels).labelMap.map Prod.fst).Nodup)
    ∧ ∀ (mi : Model) (d : ModelData),
        ((loadModel mi d).featureMap.map Prod.fst).Nodup
        ∧ ((loadModel mi d).labelMap.map Prod.fst).Nodup := by
  refine ⟨?_, ?_, ?_⟩
  · have h1 : mapOfEntries m.featureMap = m.featureMap := mapOfEntries_self _ hf
    have h2 : mapOfEntries m.labelMap = m.labelMap := mapOfEntries_self _ hl
    simp [saveModel, loadModel, toModelData, h1, h2]
  · intro mi expf logf seqs labels
    constructor
    · have hfm : (crfTrain mi expf logf seqs labels).featureMap = buildFeatureMap seqs := rfl
      rw [hfm, buildFeatureMap_eq]
      exact buildMap_keys_nodup _
    · have hlm : (crfTrain mi expf logf seqs labels).labelMap = buildLabelMap labels := rfl
      rw [hlm, buildLabelMap_eq]
      exact buildMap_keys_nodup _
  · intro mi d
    exact ⟨mapOfEntries_keys_nodup _, mapOfEntries_keys_nodup _⟩

/-- Witness for C3 at the concrete sample model. -/
theorem claim_C3_roundtrip_witness :
    saveModel (loadModel exModel (toModelData (saveModel exModel))) = saveModel exModel :=
  (claim_C3_roundtrip exModel exModel (by decide) (by decide)).1

/-- Claim C1 is *corrected*: `CRF.loadModel` validates nothing.  Every
field is unconditionally overwritten from the given data; an absent
`weights`/`featureMap`/`labelMap` becomes the empty array/map
(`new Float64Array(undefined)`, `new Map(undefined)`), no length check
against `numFeatures*numLabels` is made, and no error is ever raised. -/
theorem claim_C1_amended (m : Model) (d : ModelData) :
    (loadModel m d).weights = d.weights.getD []
    ∧ (loadModel m d).featureMap = mapOfEntries (d.featureMap.getD [])
    ∧ (loadModel m d).labelMap = mapOfEntries (d.labelMap.getD [])
    ∧ (loadModel m d).numFeatures = d.numFeatures
    ∧ (loadModel m d).numLabels = d.numLabels
    ∧ (d.weights = none → (loadModel m d).weights = [])
    ∧ (d.config = none → (loadModel m d).learningRate = m.learningRate) := by
  refine ⟨rfl, rfl, rfl, rfl, rfl, ?_, ?_⟩
  · intro h; simp [loadModel, h]
  · intro h; simp [loadModel, h]

/-- Witness for the amended C1 at concrete malformed data. -/
theorem claim_C1_amended_witness :
    (loadModel exModel exMissingWeights).weights = [] :=
  (claim_C1_amended exModel exMissingWeights).2.2.2.2.2.1 rfl

/-- Counterexample to C1 as stated: importing data whose `weights` field
is missing does not fail — it replaces the model state (so the previous
state is not preserved), leaving a weight array whose length is
inconsistent with `numFeatures*numLabels`. -/
theorem claim_C1_counterexample :
    loadModel exModel exMissingWeights ≠ exModel
    ∧ (loadModel exModel exMissingWeights).weights.length
        ≠ (loadModel exModel exMissingWeights).numFeatures *
          (loadModel exModel exMissingWeights).numLabels := by
  decide

/-- Claim C2 is *corrected*: `train` throws only when no usable sample
remains; a sample whose syllable/character alignment fails is silently
dropped (the `catch` → `{features:null}` → `if (features && labelSeq)`
path) and training continues on the remaining samples. -/
theorem claim_C2_amended (data : List TrainSample) :
    ((∃ e, segTrainPrepare data = .error e)
        ↔ ∀ s ∈ data, prepareTrainingSample s.text s.syllables = none)
    ∧ segTrainPrepare ([] : List TrainSample) = .error "No valid training samples found"
    ∧ ∀ (pre post : List TrainSample) (s : TrainSample),
        prepareTrainingSample s.text s.syllables = none →
        segTrainPrepare (pre ++ s :: post) = segTrainPrepare (pre ++ post) := by
  refine ⟨?_, rfl, ?_⟩
  · rw [segTrainPrepare]
    by_cases h : (data.filterMap (fun s => prepareTrainingSample s.text s.syllables)).length = 0
    · simp only [h, if_pos rfl]
      rw [List.length_eq_zero, List.filterMap_eq_nil_iff] at h
      exact ⟨fun _ => h, fun _ => ⟨_, rfl⟩⟩
    · simp only [if_neg h]
      constructor
      · rintro ⟨e, he⟩; simp at he
      · intro hall
        exfalso
        exact h (by rw [List.filterMap_eq_nil_iff.mpr hall]; rfl)
  · intro pre post s h
    rw [segTrainPrepare, segTrainPrepare]
    rw [List.filterMap_append, List.filterMap_append, List.filterMap_cons, h]

/-- Witness for the amended C2: dropping the concrete mismatched sample
leaves training on the remaining good sample. -/
theorem claim_C2_amended_witness :
    segTrainPrepare ([exGoodSample] ++ exBadSample :: [])
      = segTrainPrepare ([exGoodSample] ++ []) :=
  (claim_C2_amended []).2.2 [exGoodSample] [] exBadSample (by decide)

/-- Counterexample to C2 as stated: a corpus containing a mismatched
sample is *not* rejected with an error — the mismatched pair is dropped
and training proceeds on the remaining example. -/
theorem claim_C2_counterexample :
    prepareTrainingSample exBadSample.text exBadSample.syllables = none
    ∧ segTrainPrepare [exGoodSample, exBadSample]
        = .ok ([["a", "b"]], [["B", "I"]]) :=
  ⟨by decide, rfl⟩

end ThaiCRF
